import Mathlib

/-!
Shallow embedding of `src/cas/utils/conversion_utils.py` (cell annotation
schema tools): rank assignment over ordered labelsets, per-label cell-id
lookup construction, pairwise subset-based parent discovery with rank
tie-breaking, and annotation enrichment with redundant-field pruning.

Python conventions modelled explicitly:
* dictionary values that may be absent are `Option`s;
* Python truthiness of a string / optional string (`if parent and ...`)
  is `pyTruthy` (absent and the empty string are falsy);
* ranks are produced as `str(int)` by `calculate_labelset`, so the
  comparison `value.get("parent_rank", 0) <= inner_value.get("rank")`
  in `add_parent_cell_hierarchy` is a *lexicographic string* comparison
  of decimal representations (`pyStrLe (Nat.repr a) (Nat.repr b)`),
  while the tie-break branch converts with `int(...)` and compares
  numerically.
-/

namespace CasTools

/-- Python truthiness of an optional string: `None` and `""` are falsy. -/
def pyTruthy : Option String → Bool
  | none => false
  | some s => !(s == "")

/-- Lexicographic `<=` on lists of characters, by code point, as Python
compares strings. -/
def lexLe : List Char → List Char → Bool
  | [], _ => true
  | _ :: _, [] => false
  | a :: as, b :: bs =>
    if a.toNat < b.toNat then true
    else if b.toNat < a.toNat then false
    else lexLe as bs

/-- Python's `s <= t` on strings. -/
def pyStrLe (a b : String) : Bool := lexLe a.data b.data

/-- One entry of the `parent_cell_look_up` dictionary: the dictionary key
(`label`) together with the value dictionary built by
`generate_parent_cell_lookup` and mutated by `add_parent_cell_hierarchy`. -/
structure Entry where
  label : String
  cell_ids : Finset String
  accession : String
  rank : Nat
  cell_ontology_term_id : Option String := none
  cell_ontology_term : Option String := none
  parent : Option String := none
  p_accession : Option String := none
  parent_rank : Option Nat := none
deriving DecidableEq

/-- Decidable equality on `Except`, for evaluating runs on concrete inputs. -/
instance exceptDecEq {ε α : Type} [DecidableEq ε] [DecidableEq α] :
    DecidableEq (Except ε α) := fun x y =>
  match x, y with
  | .error a, .error b =>
    if h : a = b then .isTrue (by rw [h]) else .isFalse (by simp [h])
  | .error _, .ok _ => .isFalse (by simp)
  | .ok _, .error _ => .isFalse (by simp)
  | .ok a, .ok b =>
    if h : a = b then .isTrue (by rw [h]) else .isFalse (by simp [h])

/-- A default entry, only used to give `List.getD` a value. -/
def defaultEntry : Entry :=
  { label := "", cell_ids := ∅, accession := "", rank := 0 }

/-- `update_parent_info(value, parent_key, parent_value)`: writes `parent`,
`p_accession` and `parent_rank` into the child's dictionary. -/
def updateParentInfo (child : Entry) (parentKey : String) (parentVal : Entry) :
    Entry :=
  { child with
    parent := some parentKey
    p_accession := some parentVal.accession
    parent_rank := some parentVal.rank }

/-- The `continue` guard of the pairwise loop:
`key == inner_key or value.get("parent") and
 value.get("parent_rank", 0) <= inner_value.get("rank")`.
The rank comparison is Python string comparison of decimal strings. -/
def pySkip (value inner : Entry) : Bool :=
  value.label == inner.label ||
    (pyTruthy value.parent &&
      pyStrLe (Nat.repr (value.parent_rank.getD 0)) (Nat.repr inner.rank))

/-- The body of the pairwise loop of `add_parent_cell_hierarchy` for the
ordered pair of positions `(i, j)` of the lookup: reads the current state,
possibly assigns a parent (mutating position `i`, or position `j` in one
tie-break branch), or raises `ValueError` carrying the two labels. -/
def pairStep (s : List Entry) (i j : Nat) :
    Except (String × String) (List Entry) :=
  let value := s.getD i defaultEntry
  let inner := s.getD j defaultEntry
  if pySkip value inner then .ok s
  else if value.cell_ids ≠ inner.cell_ids ∧ value.cell_ids ⊆ inner.cell_ids then
    .ok (s.set i (updateParentInfo value inner.label inner))
  else if value.cell_ids = inner.cell_ids then
    if inner.rank < value.rank then
      .ok (s.set j (updateParentInfo inner value.label value))
    else if value.rank < inner.rank then
      .ok (s.set i (updateParentInfo value inner.label inner))
    else .error (value.label, inner.label)
  else .ok s

/-- `itertools.product(d.items(), repeat=2)`: every ordered pair of
positions, in row-major order. -/
def allPairs (n : Nat) : List (Nat × Nat) :=
  (List.range n).flatMap fun i => (List.range n).map fun j => (i, j)

/-- Folds `pairStep` over a list of position pairs, propagating the
`ValueError`. -/
def runPairs : List (Nat × Nat) → List Entry → Except (String × String) (List Entry)
  | [], s => .ok s
  | p :: ps, s =>
    match pairStep s p.1 p.2 with
    | .error e => .error e
    | .ok s' => runPairs ps s'

/-- `add_parent_cell_hierarchy(parent_cell_look_up)`: the full pairwise
scan over the lookup (a Python dict, modelled as a list of entries in
insertion order with distinct labels as keys). -/
def add_parent_cell_hierarchy (s : List Entry) :
    Except (String × String) (List Entry) :=
  runPairs (allPairs s.length) s

/-- Python `dict` upsert: an existing key keeps its position and gets the
new value; a new key is appended. -/
def dictUpsert (m : List (String × Nat)) (k : String) (v : Nat) :
    List (String × Nat) :=
  if m.any (fun p => p.1 == k) then
    m.map (fun p => if p.1 == k then (k, v) else p)
  else m ++ [(k, v)]

/-- Python `dict` lookup (first, hence unique, occurrence of the key). -/
def dictGet (m : List (String × Nat)) (k : String) : Option Nat :=
  (m.find? (fun p => p.1 == k)).map (·.2)

/-- `calculate_labelset_rank(input_list)`:
`{item: list_length - 1 - rank for rank, item in enumerate(input_list)}`,
as an insertion-ordered dictionary. -/
def calculate_labelset_rank (l : List String) : List (String × Nat) :=
  l.enum.foldl (fun m p => dictUpsert m p.2 (l.length - 1 - p.1)) []

/-- The value dictionary of `labelset_dict`: the distinct members of the
labelset's column and the labelset's rank (stored as `str(rank)` in the
Python code; decimal conversion happens at the comparison sites). -/
structure LsInfo where
  members : List String
  rank : Nat
deriving DecidableEq

/-- One row of `anndata.obs`: the cell identifier (index), the labelset
columns, and the two fixed ontology columns. -/
structure Row where
  cellId : String
  cols : List (String × String)
  cell_type_ontology_term_id : String
  cell_type : String
deriving DecidableEq

/-- Value of column `c` in row `r`. -/
def colVal (r : Row) (c : String) : Option String :=
  (r.cols.find? (fun p => p.1 == c)).map (·.2)

/-- Python `str.lower()`. -/
def pyLower (s : String) : String := ⟨s.data.map Char.toLower⟩

/-- `calculate_labelset(obs, labelsets)`: members are the distinct values
of the labelset's column, rank comes from `calculate_labelset_rank`. -/
def calculate_labelset (obs : List Row) (labelsets : List String) :
    List (String × LsInfo) :=
  labelsets.foldl
    (fun m item =>
      if m.any (fun p => p.1 == item) then
        m.map (fun p =>
          if p.1 == item then
            (item,
              LsInfo.mk (obs.filterMap (fun r => colVal r item)).dedup
                ((dictGet (calculate_labelset_rank labelsets) item).getD 0))
          else p)
      else
        m ++ [(item,
          LsInfo.mk (obs.filterMap (fun r => colVal r item)).dedup
            ((dictGet (calculate_labelset_rank labelsets) item).getD 0))])
    []

/-- `get_cell_ids(anndata_obs, labelset, cell_label)`: the cell ids of the
rows whose value under the labelset column equals the label,
case-insensitively (both sides lower-cased). -/
def get_cell_ids (obs : List Row) (labelset cell_label : String) :
    List String :=
  (obs.filter (fun r =>
      match colVal r labelset with
      | some v => pyLower v == pyLower cell_label
      | none => false)).map (·.cellId)

/-- `get_cl_annotations_from_anndata(anndata_obs, columns_name, cell_label)`:
ontology term id and term of the first row matching the label
(case-sensitively); `none` models the fatal `.iloc[0]` lookup failure on an
empty filter result. -/
def get_cl_annotations_from_anndata (obs : List Row)
    (columns_name cell_label : String) : Option (String × String) :=
  (obs.find? (fun r => colVal r columns_name == some cell_label)).map
    (fun r => (r.cell_type_ontology_term_id, r.cell_type))

/-- The body of the nested loop of `generate_parent_cell_lookup` for one
`(labelset k, rank, label)` occurrence: resolve ontology terms (fatal when
no row matches), collect cell ids, request an accession from the external
service `acc`, then either union into the existing entry for the label text
or insert a fresh entry. -/
def genStep (acc : List String → String → String) (obs : List Row)
    (k : String) (rank : Nat) (label : String)
    (m : List (String × Entry)) : Option (List (String × Entry)) :=
  match get_cl_annotations_from_anndata obs k label with
  | none => none
  | some (ctoId, cto) =>
    let cell_ids := get_cell_ids obs k label
    let cell_set_accession := acc cell_ids k
    if m.any (fun p => p.1 == label) then
      some (m.map (fun p =>
        if p.1 == label then
          (p.1, { p.2 with cell_ids := p.2.cell_ids ∪ cell_ids.toFinset })
        else p))
    else
      some (m ++ [(label,
        { label := label
          cell_ids := cell_ids.toFinset
          accession := cell_set_accession
          rank := rank
          cell_ontology_term_id := some ctoId
          cell_ontology_term := some cto })])

/-- The inner loop of `generate_parent_cell_lookup` over the members of one
labelset. -/
def genMembers (acc : List String → String → String) (obs : List Row)
    (k : String) (rank : Nat) :
    List String → List (String × Entry) → Option (List (String × Entry))
  | [], m => some m
  | label :: rest, m =>
    match genStep acc obs k rank label m with
    | none => none
    | some m' => genMembers acc obs k rank rest m'

/-- `generate_parent_cell_lookup(anndata, labelset_dict)` with the external
accession service abstracted as `acc`; `none` models the fatal ontology
lookup failure. -/
def generate_parent_cell_lookup (acc : List String → String → String)
    (obs : List Row) :
    List (String × LsInfo) → List (String × Entry) →
      Option (List (String × Entry))
  | [], m => some m
  | (k, v) :: rest, m =>
    match genMembers acc obs k v.rank v.members m with
    | none => none
    | some m' => generate_parent_cell_lookup acc obs rest m'

/-- One record of `cas["annotations"]`, restricted to the fields that
`add_parent_hierarchy_to_annotations` reads or writes (optional fields may
be absent, Python dicts omit `None`-valued keys). -/
structure AnnotationRecord where
  labelset : String
  cell_label : String
  cell_set_accession : String
  cell_ontology_term_id : Option String := none
  cell_ontology_term : Option String := none
  parent_cell_set_name : Option String := none
  parent_cell_set_accession : Option String := none
deriving DecidableEq

/-- Dictionary lookup in the parent cell lookup. -/
def lookupEntry (lookup : List (String × Entry)) (k : String) :
    Option Entry :=
  (lookup.find? (fun p => p.1 == k)).map (·.2)

/-- The loop body of `add_parent_hierarchy_to_annotations` for one
annotation record: attach `parent_cell_set_name` / `parent_cell_set_accession`
when the looked-up entry has truthy `parent` and `p_accession`, then strip
the record's ontology fields when both exactly equal the parent entry's. -/
def enrichAnnotationRecord (lookup : List (String × Entry)) (a : AnnotationRecord) :
    AnnotationRecord :=
  let parent_info := lookupEntry lookup a.cell_label
  let parent := parent_info.bind (·.parent)
  let p_accession := parent_info.bind (·.p_accession)
  if pyTruthy parent && pyTruthy p_accession then
    let a1 := { a with
      parent_cell_set_name := parent
      parent_cell_set_accession := p_accession }
    let parent_dict := (parent.bind (lookupEntry lookup ·))
    if (parent_dict.bind (·.cell_ontology_term_id)) == a1.cell_ontology_term_id
        && (parent_dict.bind (·.cell_ontology_term)) == a1.cell_ontology_term then
      { a1 with cell_ontology_term_id := none, cell_ontology_term := none }
    else a1
  else a

/-- `add_parent_hierarchy_to_annotations(cas, parent_cell_look_up)`: each
annotation record is enriched in place from the lookup. -/
def add_parent_hierarchy_to_annotations (lookup : List (String × Entry))
    (annotations : List AnnotationRecord) : List AnnotationRecord :=
  annotations.map (enrichAnnotationRecord lookup)

/-! ### Basic facts about the Python string order -/

theorem lexLe_refl : ∀ l : List Char, lexLe l l = true
  | [] => rfl
  | a :: as => by simp [lexLe, lexLe_refl as]

theorem pyStrLe_refl (s : String) : pyStrLe s s = true := lexLe_refl s.data

theorem lexLe_total : ∀ l m : List Char, lexLe l m = true ∨ lexLe m l = true
  | [], _ => Or.inl rfl
  | _ :: _, [] => Or.inr rfl
  | a :: as, b :: bs => by
    by_cases hab : a.toNat < b.toNat
    · exact Or.inl (by simp [lexLe, hab])
    · by_cases hba : b.toNat < a.toNat
      · exact Or.inr (by simp [lexLe, hba, Nat.lt_asymm hba])
      · rcases lexLe_total as bs with h | h
        · exact Or.inl (by simp [lexLe, hab, hba, h])
        · exact Or.inr (by simp [lexLe, hab, hba, h])

theorem lexLe_antisymm : ∀ l m : List Char,
    lexLe l m = true → lexLe m l = true → l = m
  | [], [], _, _ => rfl
  | [], _ :: _, _, h => by simp [lexLe] at h
  | _ :: _, [], h, _ => by simp [lexLe] at h
  | a :: as, b :: bs, h₁, h₂ => by
    by_cases hab : a.toNat < b.toNat
    · simp [lexLe, hab, Nat.lt_asymm hab] at h₂
    · by_cases hba : b.toNat < a.toNat
      · simp [lexLe, hab, hba] at h₁
      · have hc : a = b := Char.eq_of_val_eq (by
          apply UInt32.ext
          exact Nat.le_antisymm (Nat.le_of_not_lt hba) (Nat.le_of_not_lt hab))
        simp only [lexLe, hab, hba, if_false] at h₁ h₂
        rw [hc, lexLe_antisymm as bs h₁ h₂]

theorem lexLe_trans : ∀ l m k : List Char,
    lexLe l m = true → lexLe m k = true → lexLe l k = true
  | [], _, _, _, _ => rfl
  | _ :: _, [], _, h, _ => by simp [lexLe] at h
  | _ :: _, _ :: _, [], _, h => by simp [lexLe] at h
  | a :: as, b :: bs, c :: cs, h₁, h₂ => by
    by_cases hab : a.toNat < b.toNat <;> by_cases hbc : b.toNat < c.toNat
    · simp [lexLe, Nat.lt_trans hab hbc]
    · by_cases hcb : c.toNat < b.toNat
      · simp [lexLe, hbc, hcb] at h₂
      · have : b.toNat = c.toNat := Nat.le_antisymm (Nat.le_of_not_lt hcb) (Nat.le_of_not_lt hbc)
        simp [lexLe, this ▸ hab]
    · by_cases hba : b.toNat < a.toNat
      · simp [lexLe, hab, hba] at h₁
      · have : a.toNat = b.toNat := Nat.le_antisymm (Nat.le_of_not_lt hba) (Nat.le_of_not_lt hab)
        simp [lexLe, this, hbc]
    · by_cases hba : b.toNat < a.toNat
      · simp [lexLe, hab, hba] at h₁
      · by_cases hcb : c.toNat < b.toNat
        · simp [lexLe, hbc, hcb] at h₂
        · have e₁ : a.toNat = b.toNat := Nat.le_antisymm (Nat.le_of_not_lt hba) (Nat.le_of_not_lt hab)
          have e₂ : b.toNat = c.toNat := Nat.le_antisymm (Nat.le_of_not_lt hcb) (Nat.le_of_not_lt hbc)
          simp only [lexLe, hab, hbc, if_false] at h₁ h₂
          rw [if_neg hba] at h₁
          rw [if_neg hcb] at h₂
          have hac : ¬a.toNat < c.toNat := by omega
          have hca : ¬c.toNat < a.toNat := by omega
          simp [lexLe, hac, hca, lexLe_trans as bs cs h₁ h₂]

theorem pyStrLe_total (a b : String) : pyStrLe a b = true ∨ pyStrLe b a = true :=
  lexLe_total a.data b.data

theorem pyStrLe_antisymm (a b : String) (h₁ : pyStrLe a b = true)
    (h₂ : pyStrLe b a = true) : a = b := by
  cases a; cases b
  exact congrArg String.mk (lexLe_antisymm _ _ h₁ h₂)

theorem pyStrLe_trans (a b c : String) (h₁ : pyStrLe a b = true)
    (h₂ : pyStrLe b c = true) : pyStrLe a c = true :=
  lexLe_trans a.data b.data c.data h₁ h₂

/-! ### List update helpers -/

/-- Entry of `s` at position `i` (the default is never observed in range). -/
def entryAt (s : List Entry) (i : Nat) : Entry := s.getD i defaultEntry

theorem entryAt_set_self {s : List Entry} {i : Nat} (h : i < s.length)
    (a : Entry) : entryAt (s.set i a) i = a := by
  simp [entryAt, List.getD, List.getElem?_set_eq_of_lt a h]

theorem entryAt_set_ne {s : List Entry} {i j : Nat} (h : i ≠ j)
    (a : Entry) : entryAt (s.set i a) j = entryAt s j := by
  simp [entryAt, List.getD, List.getElem?_set_ne h]

theorem set_entryAt_self {s : List Entry} {i : Nat} (h : i < s.length) :
    s.set i (entryAt s i) = s := by
  induction s generalizing i with
  | nil => simp at h
  | cons a as ih =>
    cases i with
    | zero => simp [entryAt, List.getD]
    | succ n =>
      simp only [List.set, List.cons.injEq, true_and]
      exact ih (by simpa using h)

theorem entryAt_eq_getElem {s : List Entry} {i : Nat} (h : i < s.length) :
    entryAt s i = s[i] := by
  simp [entryAt, List.getD, List.getElem?_eq_getElem h]

theorem entryAt_mem {s : List Entry} {i : Nat} (h : i < s.length) :
    entryAt s i ∈ s := by
  rw [entryAt_eq_getElem h]; exact List.getElem_mem h

/-! ### Shape of one step of the pairwise scan -/

theorem updateParentInfo_label (c : Entry) (k : String) (p : Entry) :
    (updateParentInfo c k p).label = c.label := rfl

theorem pairStep_ok_cases {s : List Entry} {i j : Nat} {t : List Entry}
    (h : pairStep s i j = .ok t) :
    t = s ∨
    ((entryAt s i).label ≠ (entryAt s j).label ∧
      t = s.set i (updateParentInfo (entryAt s i) (entryAt s j).label (entryAt s j)) ∧
      ((entryAt s i).cell_ids ⊂ (entryAt s j).cell_ids ∨
        ((entryAt s i).cell_ids = (entryAt s j).cell_ids ∧
          (entryAt s i).rank < (entryAt s j).rank))) ∨
    ((entryAt s i).label ≠ (entryAt s j).label ∧
      t = s.set j (updateParentInfo (entryAt s j) (entryAt s i).label (entryAt s i)) ∧
      (entryAt s j).cell_ids = (entryAt s i).cell_ids ∧
      (entryAt s j).rank < (entryAt s i).rank) := by
  simp only [pairStep, entryAt] at h ⊢
  split at h
  · exact Or.inl (Except.ok.inj h).symm
  · rename_i hskip
    have hlab : ¬(s.getD i defaultEntry).label = (s.getD j defaultEntry).label := by
      intro he
      apply hskip
      simp only [pySkip, Bool.or_eq_true, beq_iff_eq]
      exact Or.inl he
    split at h
    · rename_i hsub
      refine Or.inr (Or.inl ⟨hlab, (Except.ok.inj h).symm, Or.inl ?_⟩)
      exact lt_of_le_of_ne hsub.2 hsub.1
    · split at h
      · rename_i heq
        split at h
        · rename_i hlt
          exact Or.inr (Or.inr ⟨hlab, (Except.ok.inj h).symm, heq.symm, hlt⟩)
        · split at h
          · rename_i hlt
            exact Or.inr (Or.inl ⟨hlab, (Except.ok.inj h).symm, Or.inr ⟨heq, hlt⟩⟩)
          · exact absurd h (by simp)
      · exact Or.inl (Except.ok.inj h).symm

/-- The immutable fields (`label`, `cell_ids`, `accession`, `rank`,
ontology terms) of every position agree between two states. -/
def sameImm (s t : List Entry) : Prop :=
  t.length = s.length ∧ ∀ i,
    (entryAt t i).label = (entryAt s i).label ∧
    (entryAt t i).cell_ids = (entryAt s i).cell_ids ∧
    (entryAt t i).accession = (entryAt s i).accession ∧
    (entryAt t i).rank = (entryAt s i).rank

theorem sameImm_refl (s : List Entry) : sameImm s s :=
  ⟨rfl, fun _ => ⟨rfl, rfl, rfl, rfl⟩⟩

theorem sameImm_trans {s t u : List Entry} (h₁ : sameImm s t)
    (h₂ : sameImm t u) : sameImm s u := by
  refine ⟨h₂.1.trans h₁.1, fun i => ?_⟩
  obtain ⟨a₁, b₁, c₁, d₁⟩ := h₁.2 i
  obtain ⟨a₂, b₂, c₂, d₂⟩ := h₂.2 i
  exact ⟨a₂.trans a₁, b₂.trans b₁, c₂.trans c₁, d₂.trans d₁⟩

theorem sameImm_set {s : List Entry} {w : Nat} {c : Entry}
    (hc : c.label = (entryAt s w).label ∧ c.cell_ids = (entryAt s w).cell_ids ∧
      c.accession = (entryAt s w).accession ∧ c.rank = (entryAt s w).rank) :
    sameImm s (s.set w c) := by
  refine ⟨by simp, fun i => ?_⟩
  by_cases hiw : w = i
  · subst hiw
    by_cases hw : w < s.length
    · rw [entryAt_set_self hw]; exact hc
    · rw [List.set_eq_of_length_le (Nat.le_of_not_lt hw)]
      exact ⟨rfl, rfl, rfl, rfl⟩
  · rw [entryAt_set_ne hiw]
    exact ⟨rfl, rfl, rfl, rfl⟩

theorem pairStep_sameImm {s : List Entry} {i j : Nat} {t : List Entry}
    (h : pairStep s i j = .ok t) : sameImm s t := by
  rcases pairStep_ok_cases h with rfl | ⟨_, rfl, _⟩ | ⟨_, rfl, _⟩
  · exact sameImm_refl _
  · exact sameImm_set ⟨rfl, rfl, rfl, rfl⟩
  · exact sameImm_set ⟨rfl, rfl, rfl, rfl⟩

/-! ### The parent invariant maintained by the pairwise scan -/

/-- Every assigned parent pointer references a position whose entry has the
recorded accession and rank, and is either a strict cell-id superset or an
equal cell-id set at strictly greater rank. -/
def Inv (s : List Entry) : Prop :=
  ∀ i, i < s.length → (entryAt s i).parent = none ∨
    ∃ j, j < s.length ∧ (entryAt s i).parent = some (entryAt s j).label ∧
      (entryAt s i).p_accession = some (entryAt s j).accession ∧
      (entryAt s i).parent_rank = some (entryAt s j).rank ∧
      ((entryAt s i).cell_ids ⊂ (entryAt s j).cell_ids ∨
        ((entryAt s i).cell_ids = (entryAt s j).cell_ids ∧
          (entryAt s i).rank < (entryAt s j).rank))

theorem inv_transfer {s t : List Entry} (himm : sameImm s t)
    (hpar : ∀ i, (entryAt t i).parent = (entryAt s i).parent ∧
      (entryAt t i).p_accession = (entryAt s i).p_accession ∧
      (entryAt t i).parent_rank = (entryAt s i).parent_rank)
    (hI : Inv s) : Inv t := by
  intro k hk
  obtain ⟨pe, pa, pr⟩ := hpar k
  obtain ⟨lb, ci, ac, rk⟩ := himm.2 k
  rcases hI k (himm.1 ▸ hk) with hnone | ⟨j, hj, h₁, h₂, h₃, h₄⟩
  · exact Or.inl (pe.trans hnone)
  · obtain ⟨lb', ci', ac', rk'⟩ := himm.2 j
    refine Or.inr ⟨j, himm.1 ▸ hj, ?_, ?_, ?_, ?_⟩
    · rw [pe, lb']; exact h₁
    · rw [pa, ac']; exact h₂
    · rw [pr, rk']; exact h₃
    · rw [ci, ci', rk, rk']; exact h₄

theorem pairStep_inv {s : List Entry} {i j : Nat} {t : List Entry}
    (hi : i < s.length) (hj : j < s.length)
    (h : pairStep s i j = .ok t) (hI : Inv s) : Inv t := by
  rcases pairStep_ok_cases h with rfl | ⟨hlab, rfl, hcond⟩ | ⟨hlab, rfl, hcond⟩
  · exact hI
  · -- position i gets parent j
    have hij : i ≠ j := fun he => hlab (he ▸ rfl)
    intro k hk
    rw [List.length_set] at hk
    by_cases hki : k = i
    · subst hki
      rw [entryAt_set_self hk]
      refine Or.inr ⟨j, by simpa using hj, ?_⟩
      rw [entryAt_set_ne hij]
      exact ⟨rfl, rfl, rfl, hcond⟩
    · rw [entryAt_set_ne (fun he => hki he.symm)]
      rcases hI k hk with hnone | ⟨j₀, hj₀, h₁, h₂, h₃, h₄⟩
      · exact Or.inl hnone
      · refine Or.inr ⟨j₀, by simpa using hj₀, ?_⟩
        by_cases hj₀i : i = j₀
        · subst hj₀i
          rw [entryAt_set_self (by simpa using hj₀)]
          exact ⟨h₁, h₂, h₃, h₄⟩
        · rw [entryAt_set_ne hj₀i]
          exact ⟨h₁, h₂, h₃, h₄⟩
  · -- position j gets parent i
    have hij : j ≠ i := fun he => hlab (he ▸ rfl)
    intro k hk
    rw [List.length_set] at hk
    by_cases hkj : k = j
    · subst hkj
      rw [entryAt_set_self hk]
      refine Or.inr ⟨i, by simpa using hi, ?_⟩
      rw [entryAt_set_ne hij]
      exact ⟨rfl, rfl, rfl, Or.inr hcond⟩
    · rw [entryAt_set_ne (fun he => hkj he.symm)]
      rcases hI k hk with hnone | ⟨j₀, hj₀, h₁, h₂, h₃, h₄⟩
      · exact Or.inl hnone
      · refine Or.inr ⟨j₀, by simpa using hj₀, ?_⟩
        by_cases hj₀j : j = j₀
        · subst hj₀j
          rw [entryAt_set_self (by simpa using hj₀)]
          exact ⟨h₁, h₂, h₃, h₄⟩
        · rw [entryAt_set_ne hj₀j]
          exact ⟨h₁, h₂, h₃, h₄⟩

theorem runPairs_inv : ∀ (ps : List (Nat × Nat)) (s t : List Entry),
    (∀ p ∈ ps, p.1 < s.length ∧ p.2 < s.length) →
    runPairs ps s = .ok t → Inv s → Inv t ∧ sameImm s t
  | [], s, t, _, h, hI => by
    simp only [runPairs] at h
    injection h with h
    exact h ▸ ⟨hI, sameImm_refl s⟩
  | p :: ps, s, t, hb, h, hI => by
    simp only [runPairs] at h
    cases hps : pairStep s p.1 p.2 with
    | error e => rw [hps] at h; exact absurd h (by simp)
    | ok s' =>
      rw [hps] at h
      have hbp := hb p (by simp)
      have himm := pairStep_sameImm hps
      have hI' := pairStep_inv hbp.1 hbp.2 hps hI
      have hb' : ∀ q ∈ ps, q.1 < s'.length ∧ q.2 < s'.length := by
        intro q hq
        rw [himm.1]
        exact hb q (by simp [hq])
      obtain ⟨hIt, himm'⟩ := runPairs_inv ps s' t hb' h hI'
      exact ⟨hIt, sameImm_trans himm himm'⟩

theorem allPairs_bounds {n : Nat} {p : Nat × Nat} (h : p ∈ allPairs n) :
    p.1 < n ∧ p.2 < n := by
  simp only [allPairs, List.mem_flatMap, List.mem_map, List.mem_range] at h
  obtain ⟨i, hi, j, hj, rfl⟩ := h
  exact ⟨hi, hj⟩

/-! ### Acyclicity of the resulting parent relation -/

/-- Position `b` is recorded as the parent of position `a` in state `t`
(parents are recorded by label, the dictionary key). -/
def parentEdge (t : List Entry) (a b : Nat) : Prop :=
  a < t.length ∧ b < t.length ∧
    (entryAt t a).parent = some (entryAt t b).label

/-- The strict order that every parent edge respects: strictly larger
cell-id set, or equal cell-id set and strictly larger rank. -/
def entryLt (t : List Entry) (a b : Nat) : Prop :=
  (entryAt t a).cell_ids ⊂ (entryAt t b).cell_ids ∨
    ((entryAt t a).cell_ids = (entryAt t b).cell_ids ∧
      (entryAt t a).rank < (entryAt t b).rank)

theorem entryLt_trans {t : List Entry} : Transitive (entryLt t) := by
  intro a b c h₁ h₂
  rcases h₁ with h₁ | ⟨e₁, r₁⟩ <;> rcases h₂ with h₂ | ⟨e₂, r₂⟩
  · exact Or.inl (h₁.trans h₂)
  · exact Or.inl (e₂ ▸ h₁)
  · exact Or.inl (e₁ ▸ h₂)
  · exact Or.inr ⟨e₁.trans e₂, r₁.trans r₂⟩

theorem entryLt_irrefl {t : List Entry} (a : Nat) : ¬entryLt t a a := by
  rintro (h | ⟨-, h⟩)
  · exact ssubset_irrefl _ h
  · exact lt_irrefl _ h

theorem labels_map_eq {s t : List Entry} (himm : sameImm s t) :
    t.map (·.label) = s.map (·.label) := by
  apply List.ext_getElem
  · simp [himm.1]
  · intro i h₁ h₂
    have ht : i < t.length := by simpa using h₁
    have hs : i < s.length := by simpa using h₂
    simp only [List.getElem_map]
    have e₁ : t[i] = entryAt t i := (entryAt_eq_getElem ht).symm
    have e₂ : s[i] = entryAt s i := (entryAt_eq_getElem hs).symm
    rw [e₁, e₂, (himm.2 i).1]

theorem parentEdge_entryLt {t : List Entry}
    (hnd : (t.map (·.label)).Nodup) (hI : Inv t) {a b : Nat}
    (h : parentEdge t a b) : entryLt t a b := by
  obtain ⟨ha, hb, hpar⟩ := h
  rcases hI a ha with hnone | ⟨j, hj, h₁, _, _, h₄⟩
  · rw [hnone] at hpar; exact absurd hpar (by simp)
  · have hlab : (entryAt t j).label = (entryAt t b).label := by
      rw [hpar] at h₁
      exact (Option.some.inj h₁).symm
    have hjm : j < (t.map (·.label)).length := by simpa using hj
    have hbm : b < (t.map (·.label)).length := by simpa using hb
    have hjb : j = b := by
      have hmap : (t.map (·.label)).get ⟨j, hjm⟩ =
          (t.map (·.label)).get ⟨b, hbm⟩ := by
        rw [List.get_eq_getElem, List.get_eq_getElem]
        simp only [List.getElem_map]
        rw [← entryAt_eq_getElem hj, ← entryAt_eq_getElem hb]
        exact hlab
      have hfin := (List.Nodup.get_inj_iff hnd).mp hmap
      exact congrArg Fin.val hfin
    subst hjb
    exact h₄

theorem transGen_entryLt {t : List Entry} {a b : Nat}
    (hnd : (t.map (·.label)).Nodup) (hI : Inv t)
    (h : Relation.TransGen (parentEdge t) a b) : entryLt t a b := by
  have := Relation.TransGen.mono (fun x y hxy => parentEdge_entryLt hnd hI hxy) h
  rwa [Relation.transGen_eq_self entryLt_trans] at this

/-! ### Evaluation helpers for two-entry lookups -/

theorem pairStep_self_skip {s : List Entry} {i : Nat} :
    pairStep s i i = .ok s := by
  simp [pairStep, pySkip]

theorem updateParentInfo_idem (c : Entry) (k : String) (p : Entry) :
    updateParentInfo (updateParentInfo c k p) k p = updateParentInfo c k p := rfl

theorem two_entry_equal_sets_aux (A B : Entry) (hL : A.label ≠ B.label)
    (hA : A.parent = none) (hB : B.parent = none) (hBne : B.label ≠ "")
    (hS : A.cell_ids = B.cell_ids) (hr : A.rank < B.rank) :
    add_parent_cell_hierarchy [A, B] = .ok [updateParentInfo A B.label B, B] ∧
    add_parent_cell_hierarchy [B, A] = .ok [B, updateParentInfo A B.label B] := by
  have hLb : (A.label == B.label) = false := beq_eq_false_iff_ne.mpr hL
  have hLb' : (B.label == A.label) = false := beq_eq_false_iff_ne.mpr (Ne.symm hL)
  have hrf : ¬(B.rank < A.rank) := Nat.lt_asymm hr
  constructor
  · have e01 : pairStep [A, B] 0 1 = .ok [updateParentInfo A B.label B, B] := by
      simp [pairStep, pySkip, entryAt, hLb, hA, pyTruthy, hS, hrf, hr]
    have e10 : pairStep [updateParentInfo A B.label B, B] 1 0 =
        .ok [updateParentInfo A B.label B, B] := by
      have : updateParentInfo (updateParentInfo A B.label B) B.label B =
          updateParentInfo A B.label B := rfl
      simp [pairStep, pySkip, entryAt, hLb', hB, pyTruthy, hS, hrf, hr,
        updateParentInfo, List.set]
    have h0 : add_parent_cell_hierarchy [A, B] =
        runPairs [(0, 0), (0, 1), (1, 0), (1, 1)] [A, B] := rfl
    rw [h0]
    simp only [runPairs, pairStep_self_skip, e01, e10]
  · have e01 : pairStep [B, A] 0 1 = .ok [B, updateParentInfo A B.label B] := by
      simp [pairStep, pySkip, entryAt, hLb', hB, pyTruthy, hS.symm, hrf, hr]
    have e10 : pairStep [B, updateParentInfo A B.label B] 1 0 =
        .ok [B, updateParentInfo A B.label B] := by
      have hpt : pyTruthy (updateParentInfo A B.label B).parent = true := by
        simp [updateParentInfo, pyTruthy, hBne]
      simp [pairStep, pySkip, entryAt, updateParentInfo, hLb, pyTruthy, hBne,
        pyStrLe_refl]
    have h0 : add_parent_cell_hierarchy [B, A] =
        runPairs [(0, 0), (0, 1), (1, 0), (1, 1)] [B, A] := rfl
    rw [h0]
    simp only [runPairs, pairStep_self_skip, e01, e10]

theorem two_entry_equal_rank_aux (A B : Entry) (hL : A.label ≠ B.label)
    (hA : A.parent = none) (hS : A.cell_ids = B.cell_ids) (hr : A.rank = B.rank) :
    add_parent_cell_hierarchy [A, B] = .error (A.label, B.label) := by
  have hLb : (A.label == B.label) = false := beq_eq_false_iff_ne.mpr hL
  have e01 : pairStep [A, B] 0 1 = .error (A.label, B.label) := by
    simp [pairStep, pySkip, entryAt, hLb, hA, pyTruthy, hS, hr]
  have h0 : add_parent_cell_hierarchy [A, B] =
      runPairs [(0, 0), (0, 1), (1, 0), (1, 1)] [A, B] := rfl
  rw [h0]
  simp only [runPairs, pairStep_self_skip, e01]

/-! ### Order independence machinery: per-entry candidate folds -/

/-- What one loop iteration does to the value entry `e` when the pair is
examined against candidate `c`, in the absence of equal cell-id sets. -/
def candStep (e c : Entry) : Entry :=
  if pySkip e c then e
  else if e.cell_ids ≠ c.cell_ids ∧ e.cell_ids ⊆ c.cell_ids then
    updateParentInfo e c.label c
  else e

/-- Folding `candStep` over the whole candidate list. -/
def candFold (l : List Entry) (e : Entry) : Entry := l.foldl candStep e

/-- `c` is a parent candidate for `e`: different key and a strict cell-id
superset. -/
def goodCand (e c : Entry) : Prop :=
  e.label ≠ c.label ∧ e.cell_ids ≠ c.cell_ids ∧ e.cell_ids ⊆ c.cell_ids

instance goodCandDec (e c : Entry) : Decidable (goodCand e c) := by
  unfold goodCand; infer_instance

/-- Running minimum (by lexicographic decimal rank string, first wins on
ties) over the parent candidates. -/
def chooseStep (e : Entry) (acc : Option Entry) (c : Entry) : Option Entry :=
  if goodCand e c then
    match acc with
    | none => some c
    | some q =>
      if pyStrLe (Nat.repr q.rank) (Nat.repr c.rank) then some q else some c
  else acc

def chooseMin (l : List Entry) (e : Entry) : Option Entry :=
  l.foldl (chooseStep e) none

/-- Applies the outcome of the candidate choice to the entry. -/
def applyOpt (e : Entry) : Option Entry → Entry
  | none => e
  | some p => updateParentInfo e p.label p

theorem candStep_imm (e c : Entry) :
    (candStep e c).label = e.label ∧ (candStep e c).cell_ids = e.cell_ids ∧
    (candStep e c).accession = e.accession ∧ (candStep e c).rank = e.rank := by
  unfold candStep
  split
  · exact ⟨rfl, rfl, rfl, rfl⟩
  · split
    · exact ⟨rfl, rfl, rfl, rfl⟩
    · exact ⟨rfl, rfl, rfl, rfl⟩

theorem candStep_imm_congr (e : Entry) {c c' : Entry}
    (h₁ : c'.label = c.label) (h₂ : c'.cell_ids = c.cell_ids)
    (h₃ : c'.accession = c.accession) (h₄ : c'.rank = c.rank) :
    candStep e c' = candStep e c := by
  unfold candStep pySkip updateParentInfo
  rw [h₁, h₂, h₃, h₄]

theorem updateParentInfo_cell_ids (c : Entry) (k : String) (p : Entry) :
    (updateParentInfo c k p).cell_ids = c.cell_ids := rfl

theorem updateParentInfo_rank (c : Entry) (k : String) (p : Entry) :
    (updateParentInfo c k p).rank = c.rank := rfl

theorem updateParentInfo_parent (c : Entry) (k : String) (p : Entry) :
    (updateParentInfo c k p).parent = some k := rfl

theorem updateParentInfo_parent_rank (c : Entry) (k : String) (p : Entry) :
    (updateParentInfo c k p).parent_rank = some p.rank := rfl

theorem candStep_applyOpt (e c : Entry) (acc : Option Entry)
    (hp : e.parent = none)
    (hacc : ∀ q, acc = some q → q.label ≠ "" ∧ goodCand e q) :
    candStep (applyOpt e acc) c = applyOpt e (chooseStep e acc c) := by
  cases acc with
  | none =>
    simp only [applyOpt, chooseStep]
    by_cases hlab : e.label = c.label
    · have hskip : pySkip e c = true := by
        simp [pySkip, hlab]
      have hgood : ¬goodCand e c := fun hg => hg.1 hlab
      simp [candStep, hskip, hgood, applyOpt]
    · have hskip : pySkip e c = false := by
        simp [pySkip, hlab, hp, pyTruthy]
      by_cases hsub : e.cell_ids ≠ c.cell_ids ∧ e.cell_ids ⊆ c.cell_ids
      · have hgood : goodCand e c := ⟨hlab, hsub.1, hsub.2⟩
        simp [candStep, hskip, hsub, hgood, applyOpt]
      · have hgood : ¬goodCand e c := fun hg => hsub ⟨hg.2.1, hg.2.2⟩
        simp [candStep, hskip, hsub, hgood, applyOpt]
  | some q =>
    obtain ⟨hqne, hqgood⟩ := hacc q rfl
    simp only [applyOpt, chooseStep]
    by_cases hlab : e.label = c.label
    · have hskip : pySkip (updateParentInfo e q.label q) c = true := by
        simp [pySkip, updateParentInfo_label, hlab]
      have hgood : ¬goodCand e c := fun hg => hg.1 hlab
      simp [candStep, hskip, hgood, applyOpt]
    · by_cases hle : pyStrLe (Nat.repr q.rank) (Nat.repr c.rank) = true
      · have hskip : pySkip (updateParentInfo e q.label q) c = true := by
          simp [pySkip, updateParentInfo_parent, updateParentInfo_parent_rank,
            pyTruthy, hqne, hle]
        have hcs : candStep (updateParentInfo e q.label q) c =
            updateParentInfo e q.label q := by
          simp [candStep, hskip]
        by_cases hgood : goodCand e c
        · simp [hgood, hle, hcs, applyOpt]
        · simp [hgood, hcs, applyOpt]
      · have hskip : pySkip (updateParentInfo e q.label q) c = false := by
          simp [pySkip, updateParentInfo_label, updateParentInfo_parent,
            updateParentInfo_parent_rank, pyTruthy, hqne, hle, hlab]
        by_cases hsub : e.cell_ids ≠ c.cell_ids ∧ e.cell_ids ⊆ c.cell_ids
        · have hgood : goodCand e c := ⟨hlab, hsub.1, hsub.2⟩
          have hsub' : (updateParentInfo e q.label q).cell_ids ≠ c.cell_ids ∧
              (updateParentInfo e q.label q).cell_ids ⊆ c.cell_ids := hsub
          have hcs : candStep (updateParentInfo e q.label q) c =
              updateParentInfo e c.label c := by
            simp only [candStep, hskip, Bool.false_eq_true, if_false, if_pos hsub']
            rfl
          simp [hgood, hle, hcs, applyOpt]
        · have hgood : ¬goodCand e c := fun hg => hsub ⟨hg.2.1, hg.2.2⟩
          have hsub' : ¬((updateParentInfo e q.label q).cell_ids ≠ c.cell_ids ∧
              (updateParentInfo e q.label q).cell_ids ⊆ c.cell_ids) := hsub
          have hcs : candStep (updateParentInfo e q.label q) c =
              updateParentInfo e q.label q := by
            simp only [candStep, hskip, Bool.false_eq_true, if_false, if_neg hsub']
          simp [hgood, hcs, applyOpt]

theorem candFold_applyOpt : ∀ (l : List Entry) (e : Entry) (acc : Option Entry),
    e.parent = none →
    (∀ c ∈ l, c.label ≠ "") →
    (∀ q, acc = some q → q.label ≠ "" ∧ goodCand e q) →
    l.foldl candStep (applyOpt e acc) = applyOpt e (l.foldl (chooseStep e) acc)
  | [], e, acc, _, _, _ => rfl
  | c :: l, e, acc, hp, hne, hacc => by
    simp only [List.foldl_cons]
    rw [candStep_applyOpt e c acc hp hacc]
    apply candFold_applyOpt l e (chooseStep e acc c) hp
      (fun c' hc' => hne c' (by simp [hc']))
    intro q hq
    unfold chooseStep at hq
    split at hq
    · rename_i hgood
      cases acc with
      | none =>
        have hq' : some c = some q := hq
        injection hq' with hq'
        exact hq' ▸ ⟨hne c (by simp), hgood⟩
      | some p =>
        obtain ⟨hpne, hpgood⟩ := hacc p rfl
        have hq' : (if pyStrLe (Nat.repr p.rank) (Nat.repr c.rank) = true
            then some p else some c) = some q := hq
        by_cases hple : pyStrLe (Nat.repr p.rank) (Nat.repr c.rank) = true
        · rw [if_pos hple] at hq'
          injection hq' with hq'
          exact hq' ▸ ⟨hpne, hpgood⟩
        · rw [if_neg hple] at hq'
          injection hq' with hq'
          exact hq' ▸ ⟨hne c (by simp), hgood⟩
    · exact hacc q hq

theorem candFold_eq_applyOpt_chooseMin (l : List Entry) (e : Entry)
    (hp : e.parent = none) (hne : ∀ c ∈ l, c.label ≠ "") :
    candFold l e = applyOpt e (chooseMin l e) := by
  have := candFold_applyOpt l e none hp hne (by simp)
  simpa [applyOpt, candFold, chooseMin] using this

/-- Distinct positions hold distinct cell-id sets. -/
def distinctSets (s : List Entry) : Prop :=
  ∀ a b, a < s.length → b < s.length → a ≠ b →
    (entryAt s a).cell_ids ≠ (entryAt s b).cell_ids

theorem distinctSets_transfer {s0 s : List Entry} (himm : sameImm s0 s)
    (h : distinctSets s0) : distinctSets s := by
  intro a b ha hb hab
  rw [(himm.2 a).2.1, (himm.2 b).2.1]
  exact h a b (himm.1 ▸ ha) (himm.1 ▸ hb) hab

theorem candFold_imm : ∀ (l : List Entry) (e : Entry),
    (candFold l e).label = e.label ∧ (candFold l e).cell_ids = e.cell_ids ∧
    (candFold l e).accession = e.accession ∧ (candFold l e).rank = e.rank
  | [], _ => ⟨rfl, rfl, rfl, rfl⟩
  | c :: l, e => by
    have h₁ := candFold_imm l (candStep e c)
    have h₂ := candStep_imm e c
    simp only [candFold, List.foldl_cons] at h₁ ⊢
    exact ⟨h₁.1.trans h₂.1, h₁.2.1.trans h₂.2.1, h₁.2.2.1.trans h₂.2.2.1,
      h₁.2.2.2.trans h₂.2.2.2⟩

theorem runPairs_append : ∀ (ps qs : List (Nat × Nat)) (s s' : List Entry),
    runPairs ps s = .ok s' →
    runPairs (ps ++ qs) s = runPairs qs s'
  | [], qs, s, s', h => by
    simp only [runPairs] at h
    injection h with h
    rw [List.nil_append, h]
  | p :: ps, qs, s, s', h => by
    simp only [runPairs] at h ⊢
    cases hps : pairStep s p.1 p.2 with
    | error e => rw [hps] at h; exact absurd h (by simp)
    | ok s₁ =>
      rw [hps] at h
      simp only [List.cons_append, runPairs, hps]
      exact runPairs_append ps qs s₁ s' h

/-- `pairStep` rewritten through `entryAt` (definitional). -/
theorem pairStep_entryAt (s : List Entry) (i j : Nat) :
    pairStep s i j =
      (if pySkip (entryAt s i) (entryAt s j) then .ok s
       else if (entryAt s i).cell_ids ≠ (entryAt s j).cell_ids ∧
           (entryAt s i).cell_ids ⊆ (entryAt s j).cell_ids then
         .ok (s.set i (updateParentInfo (entryAt s i) (entryAt s j).label (entryAt s j)))
       else if (entryAt s i).cell_ids = (entryAt s j).cell_ids then
         if (entryAt s j).rank < (entryAt s i).rank then
           .ok (s.set j (updateParentInfo (entryAt s j) (entryAt s i).label (entryAt s i)))
         else if (entryAt s i).rank < (entryAt s j).rank then
           .ok (s.set i (updateParentInfo (entryAt s i) (entryAt s j).label (entryAt s j)))
         else .error ((entryAt s i).label, (entryAt s j).label)
       else .ok s) := rfl

theorem runPairs_row : ∀ (js : List Nat) (s : List Entry) (i : Nat) (e : Entry),
    i < s.length → (∀ j ∈ js, j < s.length) →
    e.label = (entryAt s i).label →
    e.cell_ids = (entryAt s i).cell_ids →
    distinctSets s →
    runPairs (js.map (fun j => (i, j))) (s.set i e) =
      .ok (s.set i (js.foldl (fun e' j => candStep e' (entryAt s j)) e))
  | [], s, i, e, _, _, _, _, _ => rfl
  | j :: js, s, i, e, hi, hjs, hlab, hcid, hds => by
    have hj : j < s.length := hjs j (by simp)
    have hv : entryAt (s.set i e) i = e := entryAt_set_self hi e
    by_cases hij : i = j
    · subst hij
      have hskip : pySkip e (entryAt s i) = true := by
        simp [pySkip, hlab]
      have hstep : pairStep (s.set i e) i i = .ok (s.set i e) := pairStep_self_skip
      have hcand : candStep e (entryAt s i) = e := by
        simp [candStep, hskip]
      simp only [List.map_cons, runPairs, hstep, List.foldl_cons, hcand]
      exact runPairs_row js s i e hi (fun j' hj' => hjs j' (by simp [hj'])) hlab hcid hds
    · have hin : entryAt (s.set i e) j = entryAt s j := entryAt_set_ne hij e
      by_cases hskip : pySkip e (entryAt s j) = true
      · have hstep : pairStep (s.set i e) i j = .ok (s.set i e) := by
          rw [pairStep_entryAt, hv, hin, if_pos hskip]
        have hcand : candStep e (entryAt s j) = e := by
          simp [candStep, hskip]
        simp only [List.map_cons, runPairs, hstep, List.foldl_cons, hcand]
        exact runPairs_row js s i e hi (fun j' hj' => hjs j' (by simp [hj'])) hlab hcid hds
      · by_cases hsub : e.cell_ids ≠ (entryAt s j).cell_ids ∧
            e.cell_ids ⊆ (entryAt s j).cell_ids
        · have hstep : pairStep (s.set i e) i j =
              .ok (s.set i (updateParentInfo e (entryAt s j).label (entryAt s j))) := by
            rw [pairStep_entryAt, hv, hin, if_neg (by simp [hskip]), if_pos hsub,
              List.set_set]
          have hcand : candStep e (entryAt s j) =
              updateParentInfo e (entryAt s j).label (entryAt s j) := by
            simp only [candStep, if_neg (by simp [hskip] : ¬pySkip e (entryAt s j) = true),
              if_pos hsub]
          simp only [List.map_cons, runPairs, hstep, List.foldl_cons, hcand]
          exact runPairs_row js s i (updateParentInfo e (entryAt s j).label (entryAt s j))
            hi (fun j' hj' => hjs j' (by simp [hj'])) hlab hcid hds
        · have heqF : ¬e.cell_ids = (entryAt s j).cell_ids := by
            intro he
            exact hds i j hi hj hij (hcid ▸ he)
          have hstep : pairStep (s.set i e) i j = .ok (s.set i e) := by
            rw [pairStep_entryAt, hv, hin, if_neg (by simp [hskip]), if_neg hsub,
              if_neg heqF]
          have hcand : candStep e (entryAt s j) = e := by
            simp only [candStep, if_neg (by simp [hskip] : ¬pySkip e (entryAt s j) = true),
              if_neg hsub]
          simp only [List.map_cons, runPairs, hstep, List.foldl_cons, hcand]
          exact runPairs_row js s i e hi (fun j' hj' => hjs j' (by simp [hj'])) hlab hcid hds

theorem foldl_candStep_congr : ∀ (js : List Nat) (e : Entry) {s s0 : List Entry},
    sameImm s0 s →
    js.foldl (fun e' j => candStep e' (entryAt s j)) e =
      js.foldl (fun e' j => candStep e' (entryAt s0 j)) e
  | [], _, _, _, _ => rfl
  | j :: js, e, s, s0, himm => by
    obtain ⟨h₁, h₂, h₃, h₄⟩ := himm.2 j
    simp only [List.foldl_cons, candStep_imm_congr e h₁ h₂ h₃ h₄]
    exact foldl_candStep_congr js _ himm

theorem range_map_entryAt (l : List Entry) :
    (List.range l.length).map (fun j => entryAt l j) = l := by
  apply List.ext_getElem
  · simp
  · intro i h₁ h₂
    simp only [List.getElem_map, List.getElem_range]
    exact entryAt_eq_getElem h₂

theorem foldl_range_candStep (l : List Entry) (e : Entry) :
    (List.range l.length).foldl (fun e' j => candStep e' (entryAt l j)) e =
      candFold l e := by
  have h := List.foldl_map (fun j => entryAt l j) candStep (List.range l.length) e
  rw [range_map_entryAt] at h
  exact h.symm

theorem foldl_set_length : ∀ (is : List Nat) (F : Nat → Entry) (s : List Entry),
    (is.foldl (fun st i => st.set i (F i)) s).length = s.length
  | [], _, _ => rfl
  | i :: is, F, s => by
    simp only [List.foldl_cons]
    rw [foldl_set_length is F (s.set i (F i)), List.length_set]

theorem foldl_set_entryAt : ∀ (is : List Nat) (F : Nat → Entry) (s : List Entry)
    (k : Nat), entryAt (is.foldl (fun st i => st.set i (F i)) s) k =
      if k ∈ is ∧ k < s.length then F k else entryAt s k
  | [], F, s, k => by simp
  | i :: is, F, s, k => by
    simp only [List.foldl_cons]
    rw [foldl_set_entryAt is F (s.set i (F i)) k, List.length_set]
    by_cases hk : k < s.length
    · by_cases hki : k ∈ is
      · simp [hki, hk]
      · by_cases hkeq : k = i
        · subst hkeq
          simp [hki, hk, entryAt_set_self hk]
        · simp [hki, hk, hkeq, entryAt_set_ne (fun h => hkeq h.symm)]
    · by_cases hkeq : k = i
      · subst hkeq
        rw [List.set_eq_of_length_le (Nat.le_of_not_lt hk)]
        simp [hk]
      · simp [hk, entryAt_set_ne (fun h => hkeq h.symm)]

theorem runPairs_rows : ∀ (is : List Nat) (s0 s : List Entry),
    sameImm s0 s → is.Nodup →
    (∀ i ∈ is, i < s0.length) →
    (∀ i ∈ is, entryAt s i = entryAt s0 i) →
    distinctSets s0 →
    runPairs (is.flatMap (fun i => (List.range s0.length).map (fun j => (i, j)))) s =
      .ok (is.foldl (fun st i => st.set i (candFold s0 (entryAt s0 i))) s)
  | [], s0, s, _, _, _, _, _ => rfl
  | i :: is, s0, s, himm, hnd, hb, hun, hds => by
    have hlen : s.length = s0.length := himm.1
    have hi : i < s.length := hlen ▸ hb i (by simp)
    have hrow := runPairs_row (List.range s0.length) s i (entryAt s i)
      hi (fun j hj => by rw [hlen]; exact List.mem_range.mp hj) rfl rfl
      (distinctSets_transfer himm hds)
    rw [set_entryAt_self hi] at hrow
    have hfold : (List.range s0.length).foldl
        (fun e' j => candStep e' (entryAt s j)) (entryAt s i) =
        candFold s0 (entryAt s0 i) := by
      rw [foldl_candStep_congr _ _ himm, hun i (by simp)]
      have := foldl_range_candStep s0 (entryAt s0 i)
      exact this
    rw [hfold] at hrow
    have happ := runPairs_append ((List.range s0.length).map (fun j => (i, j)))
      (is.flatMap (fun i' => (List.range s0.length).map (fun j => (i', j)))) s
      (s.set i (candFold s0 (entryAt s0 i))) hrow
    simp only [List.flatMap_cons]
    rw [happ, List.foldl_cons]
    apply runPairs_rows is s0 (s.set i (candFold s0 (entryAt s0 i)))
    · refine sameImm_trans himm (sameImm_set ?_)
      have h₁ := candFold_imm s0 (entryAt s0 i)
      have h₂ := hun i (by simp)
      rw [h₂]
      exact h₁
    · exact hnd.of_cons
    · exact fun i' hi' => hb i' (by simp [hi'])
    · intro i' hi'
      have hne : i ≠ i' := fun he => (List.nodup_cons.mp hnd).1 (he ▸ hi')
      rw [entryAt_set_ne hne]
      exact hun i' (by simp [hi'])
    · exact hds

/-- Under the order-independence hypotheses, the pairwise scan succeeds and
computes, independently for every entry, the candidate fold over the whole
lookup. -/
theorem hierarchy_canonical (s : List Entry)
    (h0 : ∀ e ∈ s, e.parent = none)
    (hne : ∀ e ∈ s, e.label ≠ "")
    (hcid : s.Pairwise (fun a b => a.cell_ids ≠ b.cell_ids)) :
    add_parent_cell_hierarchy s =
      .ok (s.map (fun e => applyOpt e (chooseMin s e))) := by
  have hds : distinctSets s := by
    intro a b ha hb hab
    rw [entryAt_eq_getElem ha, entryAt_eq_getElem hb]
    rcases Nat.lt_or_ge a b with h | h
    · exact (List.pairwise_iff_getElem.mp hcid) a b ha hb h
    · have hba : b < a := Nat.lt_of_le_of_ne h (fun he => hab he.symm)
      exact fun he => (List.pairwise_iff_getElem.mp hcid) b a hb ha hba he.symm
  have hrows := runPairs_rows (List.range s.length) s s (sameImm_refl s)
    (List.nodup_range s.length) (fun i hi => List.mem_range.mp hi)
    (fun _ _ => rfl) hds
  have hall : allPairs s.length =
      (List.range s.length).flatMap
        (fun i => (List.range s.length).map (fun j => (i, j))) := rfl
  rw [add_parent_cell_hierarchy, hall, hrows]
  congr 1
  apply List.ext_getElem
  · rw [foldl_set_length]; simp
  · intro k h₁ h₂
    have hk : k < s.length := by
      rw [foldl_set_length] at h₁; exact h₁
    rw [← entryAt_eq_getElem h₁, foldl_set_entryAt]
    simp only [List.mem_range, hk, and_true, if_pos]
    rw [List.getElem_map, ← entryAt_eq_getElem hk]
    exact candFold_eq_applyOpt_chooseMin s (entryAt s k)
      (h0 _ (entryAt_mem hk)) hne

theorem foldl_chooseStep_none : ∀ (l : List Entry) (e : Entry) (acc : Option Entry),
    l.foldl (chooseStep e) acc = none → acc = none ∧ ∀ c ∈ l, ¬goodCand e c
  | [], e, acc, h => ⟨h, by simp⟩
  | c :: l, e, acc, h => by
    simp only [List.foldl_cons] at h
    obtain ⟨h₁, h₂⟩ := foldl_chooseStep_none l e (chooseStep e acc c) h
    unfold chooseStep at h₁
    split at h₁
    · rename_i hgood
      cases acc with
      | none => exact absurd h₁ (by simp)
      | some p =>
        have h₁' : (if pyStrLe (Nat.repr p.rank) (Nat.repr c.rank) = true
            then some p else some c) = none := h₁
        by_cases hple : pyStrLe (Nat.repr p.rank) (Nat.repr c.rank) = true
        · rw [if_pos hple] at h₁'
          exact absurd h₁' (by simp)
        · rw [if_neg hple] at h₁'
          exact absurd h₁' (by simp)
    · rename_i hgood
      exact ⟨h₁, fun c' hc' => by
        rcases List.mem_cons.mp hc' with rfl | hc'
        · exact hgood
        · exact h₂ c' hc'⟩

theorem foldl_chooseStep_some : ∀ (l : List Entry) (e : Entry) (acc : Option Entry)
    (q : Entry), l.foldl (chooseStep e) acc = some q →
    (acc = some q ∨ (q ∈ l ∧ goodCand e q)) ∧
    (∀ c ∈ l, goodCand e c → pyStrLe (Nat.repr q.rank) (Nat.repr c.rank) = true) ∧
    (∀ p, acc = some p → pyStrLe (Nat.repr q.rank) (Nat.repr p.rank) = true)
  | [], e, acc, q, h => by
    simp only [List.foldl_nil] at h
    exact ⟨Or.inl h, by simp, fun p hp => by
      rw [h] at hp
      injection hp with hp
      rw [hp]
      exact pyStrLe_refl _⟩
  | c :: l, e, acc, q, h => by
    simp only [List.foldl_cons] at h
    obtain ⟨ih₁, ih₂, ih₃⟩ := foldl_chooseStep_some l e (chooseStep e acc c) q h
    by_cases hgood : goodCand e c
    · cases acc with
      | none =>
        have hacc' : chooseStep e none c = some c := by simp [chooseStep, hgood]
        rw [hacc'] at ih₁ ih₃
        have hqc : pyStrLe (Nat.repr q.rank) (Nat.repr c.rank) = true := ih₃ c rfl
        refine ⟨?_, ?_, by simp⟩
        · rcases ih₁ with h₁ | ⟨hmem, hg⟩
          · injection h₁ with h₁
            exact Or.inr ⟨by simp [← h₁], h₁ ▸ hgood⟩
          · exact Or.inr ⟨by simp [hmem], hg⟩
        · intro c' hc' hg'
          rcases List.mem_cons.mp hc' with rfl | hc'
          · exact hqc
          · exact ih₂ c' hc' hg'
      | some p =>
        by_cases hple : pyStrLe (Nat.repr p.rank) (Nat.repr c.rank) = true
        · have hacc' : chooseStep e (some p) c = some p := by
            simp [chooseStep, hgood, hple]
          rw [hacc'] at ih₁ ih₃
          have hqp : pyStrLe (Nat.repr q.rank) (Nat.repr p.rank) = true := ih₃ p rfl
          refine ⟨?_, ?_, ?_⟩
          · rcases ih₁ with h₁ | ⟨hmem, hg⟩
            · exact Or.inl h₁
            · exact Or.inr ⟨by simp [hmem], hg⟩
          · intro c' hc' hg'
            rcases List.mem_cons.mp hc' with rfl | hc'
            · exact pyStrLe_trans _ _ _ hqp hple
            · exact ih₂ c' hc' hg'
          · intro p' hp'
            injection hp' with hp'
            exact hp' ▸ hqp
        · have hacc' : chooseStep e (some p) c = some c := by
            simp [chooseStep, hgood, hple]
          rw [hacc'] at ih₁ ih₃
          have hqc : pyStrLe (Nat.repr q.rank) (Nat.repr c.rank) = true := ih₃ c rfl
          have hcp : pyStrLe (Nat.repr c.rank) (Nat.repr p.rank) = true := by
            rcases pyStrLe_total (Nat.repr p.rank) (Nat.repr c.rank) with h' | h'
            · exact absurd h' hple
            · exact h'
          refine ⟨?_, ?_, ?_⟩
          · rcases ih₁ with h₁ | ⟨hmem, hg⟩
            · injection h₁ with h₁
              exact Or.inr ⟨by simp [← h₁], h₁ ▸ hgood⟩
            · exact Or.inr ⟨by simp [hmem], hg⟩
          · intro c' hc' hg'
            rcases List.mem_cons.mp hc' with rfl | hc'
            · exact hqc
            · exact ih₂ c' hc' hg'
          · intro p' hp'
            injection hp' with hp'
            exact hp' ▸ pyStrLe_trans _ _ _ hqc hcp
    · have hacc' : chooseStep e acc c = acc := by simp [chooseStep, hgood]
      rw [hacc'] at ih₁ ih₃
      refine ⟨?_, ?_, ih₃⟩
      · rcases ih₁ with h₁ | ⟨hmem, hg⟩
        · exact Or.inl h₁
        · exact Or.inr ⟨by simp [hmem], hg⟩
      · intro c' hc' hg'
        rcases List.mem_cons.mp hc' with rfl | hc'
        · exact absurd hg' hgood
        · exact ih₂ c' hc' hg'

theorem chooseMin_none {l : List Entry} {e : Entry} (h : chooseMin l e = none) :
    ∀ c ∈ l, ¬goodCand e c :=
  (foldl_chooseStep_none l e none h).2

theorem chooseMin_some {l : List Entry} {e : Entry} {q : Entry}
    (h : chooseMin l e = some q) :
    q ∈ l ∧ goodCand e q ∧
      ∀ c ∈ l, goodCand e c → pyStrLe (Nat.repr q.rank) (Nat.repr c.rank) = true := by
  obtain ⟨h₁, h₂, _⟩ := foldl_chooseStep_some l e none q h
  rcases h₁ with h₁ | ⟨hmem, hg⟩
  · exact absurd h₁ (by simp)
  · exact ⟨hmem, hg, h₂⟩

theorem chooseMin_perm (e : Entry) {l l' : List Entry} (hperm : l.Perm l')
    (hrk : l.Pairwise (fun a b => Nat.repr a.rank ≠ Nat.repr b.rank)) :
    chooseMin l e = chooseMin l' e := by
  cases h : chooseMin l e with
  | none =>
    cases h' : chooseMin l' e with
    | none => rfl
    | some q' =>
      obtain ⟨hmem, hg, _⟩ := chooseMin_some h'
      exact absurd hg (chooseMin_none h q' (hperm.symm.subset hmem))
  | some q =>
    cases h' : chooseMin l' e with
    | none =>
      obtain ⟨hmem, hg, _⟩ := chooseMin_some h
      exact absurd hg (chooseMin_none h' q (hperm.subset hmem))
    | some q' =>
      obtain ⟨hmem, hg, hmin⟩ := chooseMin_some h
      obtain ⟨hmem', hg', hmin'⟩ := chooseMin_some h'
      have hmem'' : q' ∈ l := hperm.symm.subset hmem'
      have h₁ : pyStrLe (Nat.repr q.rank) (Nat.repr q'.rank) = true :=
        hmin q' hmem'' hg'
      have h₂ : pyStrLe (Nat.repr q'.rank) (Nat.repr q.rank) = true :=
        hmin' q (hperm.subset hmem) hg
      have hrepr : Nat.repr q.rank = Nat.repr q'.rank :=
        pyStrLe_antisymm _ _ h₁ h₂
      have hqq : q = q' := by
        by_contra hne
        exact List.Pairwise.forall (by intro x y h h'; exact h h'.symm)
          hrk hmem hmem'' hne hrepr
      rw [hqq]

theorem C4_canonical_perm (s s' : List Entry) (hperm : s.Perm s')
    (h0 : ∀ e ∈ s, e.parent = none)
    (hne : ∀ e ∈ s, e.label ≠ "")
    (hcid : s.Pairwise (fun a b => a.cell_ids ≠ b.cell_ids))
    (hrk : s.Pairwise (fun a b => Nat.repr a.rank ≠ Nat.repr b.rank)) :
    add_parent_cell_hierarchy s =
      .ok (s.map (fun e => applyOpt e (chooseMin s e))) ∧
    add_parent_cell_hierarchy s' =
      .ok (s'.map (fun e => applyOpt e (chooseMin s' e))) ∧
    (s.map (fun e => applyOpt e (chooseMin s e))).Perm
      (s'.map (fun e => applyOpt e (chooseMin s' e))) := by
  have h0' : ∀ e ∈ s', e.parent = none := fun e he => h0 e (hperm.symm.subset he)
  have hne' : ∀ e ∈ s', e.label ≠ "" := fun e he => hne e (hperm.symm.subset he)
  have hcid' : s'.Pairwise (fun a b => a.cell_ids ≠ b.cell_ids) :=
    (hperm.pairwise_iff (fun h h' => h h'.symm)).mp hcid
  refine ⟨hierarchy_canonical s h0 hne hcid,
    hierarchy_canonical s' h0' hne' hcid', ?_⟩
  have hmapeq : s.map (fun e => applyOpt e (chooseMin s e)) =
      s.map (fun e => applyOpt e (chooseMin s' e)) := by
    apply List.map_congr_left
    intro e _
    rw [chooseMin_perm e hperm hrk]
  rw [hmapeq]
  exact hperm.map _

/-! ### Characterisation of `generate_parent_cell_lookup` -/

/-- The `(labelset, rank, label)` occurrences processed by the nested loop
of `generate_parent_cell_lookup`, in processing order. -/
def occs (lsd : List (String × LsInfo)) : List (String × Nat × String) :=
  lsd.flatMap (fun p => p.2.members.map (fun lab => (p.1, p.2.rank, lab)))

/-- `generate_parent_cell_lookup` as a flat fold over the occurrences. -/
def flatGen (acc : List String → String → String) (obs : List Row) :
    List (String × Nat × String) → List (String × Entry) →
      Option (List (String × Entry))
  | [], m => some m
  | (k, r, lab) :: rest, m =>
    match genStep acc obs k r lab m with
    | none => none
    | some m' => flatGen acc obs rest m'

theorem flatGen_append (acc : List String → String → String) (obs : List Row) :
    ∀ (os₁ os₂ : List (String × Nat × String)) (m : List (String × Entry)),
    flatGen acc obs (os₁ ++ os₂) m =
      match flatGen acc obs os₁ m with
      | none => none
      | some m' => flatGen acc obs os₂ m'
  | [], os₂, m => rfl
  | (k, r, lab) :: os₁, os₂, m => by
    simp only [List.cons_append, flatGen]
    cases genStep acc obs k r lab m with
    | none => rfl
    | some m₁ => exact flatGen_append acc obs os₁ os₂ m₁

theorem genMembers_eq_flatGen (acc : List String → String → String)
    (obs : List Row) (k : String) (r : Nat) :
    ∀ (labs : List String) (m : List (String × Entry)),
    genMembers acc obs k r labs m =
      flatGen acc obs (labs.map (fun lab => (k, r, lab))) m
  | [], m => rfl
  | lab :: labs, m => by
    simp only [genMembers, List.map_cons, flatGen]
    cases genStep acc obs k r lab m with
    | none => rfl
    | some m' => exact genMembers_eq_flatGen acc obs k r labs m'

theorem generate_eq_flatGen (acc : List String → String → String)
    (obs : List Row) :
    ∀ (lsd : List (String × LsInfo)) (m : List (String × Entry)),
    generate_parent_cell_lookup acc obs lsd m = flatGen acc obs (occs lsd) m
  | [], m => rfl
  | (k, v) :: lsd, m => by
    simp only [generate_parent_cell_lookup, occs, List.flatMap_cons]
    rw [flatGen_append, ← genMembers_eq_flatGen]
    cases genMembers acc obs k v.rank v.members m with
    | none => rfl
    | some m' => exact generate_eq_flatGen acc obs lsd m'

/-- The first occurrence of label `x` in the occurrence list: its labelset
and rank. -/
def firstOcc (x : String) : List (String × Nat × String) → Option (String × Nat)
  | [] => none
  | (k, r, lab) :: rest => if lab = x then some (k, r) else firstOcc x rest

/-- Union of the cell-id sets of all occurrences of label `x`. -/
def unionIds (obs : List Row) (x : String) :
    List (String × Nat × String) → Finset String
  | [] => ∅
  | (k, _, lab) :: rest =>
    if lab = x then (get_cell_ids obs k x).toFinset ∪ unionIds obs x rest
    else unionIds obs x rest

theorem lookupEntry_none_any {m : List (String × Entry)} {x : String}
    (h : lookupEntry m x = none) : m.any (fun p => p.1 == x) = false := by
  induction m with
  | nil => rfl
  | cons p m ih =>
    cases hp : (p.1 == x) with
    | true =>
      simp only [lookupEntry, List.find?_cons, hp] at h
      exact absurd h (by simp)
    | false =>
      simp only [lookupEntry, List.find?_cons, hp] at h
      simp only [List.any_cons, hp, Bool.false_or]
      exact ih h

theorem lookupEntry_append_left {m l : List (String × Entry)} {x : String}
    {e : Entry} (h : lookupEntry m x = some e) :
    lookupEntry (m ++ l) x = some e := by
  induction m with
  | nil => exact absurd h (by simp [lookupEntry])
  | cons p m ih =>
    cases hp : (p.1 == x) with
    | true =>
      simp only [lookupEntry, List.cons_append, List.find?_cons, hp] at h ⊢
      exact h
    | false =>
      simp only [lookupEntry, List.cons_append, List.find?_cons, hp] at h ⊢
      exact ih h

theorem lookupEntry_append_none {m l : List (String × Entry)} {x : String}
    (h : lookupEntry m x = none) :
    lookupEntry (m ++ l) x = lookupEntry l x := by
  induction m with
  | nil => simp
  | cons p m ih =>
    cases hp : (p.1 == x) with
    | true =>
      simp only [lookupEntry, List.find?_cons, hp] at h
      exact absurd h (by simp)
    | false =>
      simp only [lookupEntry, List.cons_append, List.find?_cons, hp] at h ⊢
      exact ih h

theorem lookupEntry_single_self (x : String) (e : Entry) :
    lookupEntry [(x, e)] x = some e := by
  have hx : (x == x) = true := by simp
  simp [lookupEntry, List.find?, hx]

theorem lookupEntry_single_other {x y : String} (h : y ≠ x) (e : Entry) :
    lookupEntry [(y, e)] x = none := by
  have hy : (y == x) = false := beq_eq_false_iff_ne.mpr h
  simp [lookupEntry, List.find?, hy]

theorem lookupEntry_map_update (f : Entry → Entry) (x : String) :
    ∀ (m : List (String × Entry)),
    lookupEntry (m.map (fun p => if p.1 == x then (p.1, f p.2) else p)) x =
      (lookupEntry m x).map f
  | [] => rfl
  | p :: m => by
    cases hp : (p.1 == x) with
    | true =>
      have hif : (if (p.1 == x) = true then (p.1, f p.2) else p) = (p.1, f p.2) :=
        if_pos hp
      simp only [List.map_cons, hif, lookupEntry, List.find?_cons]
      simp [hp]
    | false =>
      simp only [List.map_cons, hp, Bool.false_eq_true, if_false, lookupEntry,
        List.find?_cons, hp]
      exact lookupEntry_map_update f x m

theorem lookupEntry_map_update_other (f : Entry → Entry) {x y : String}
    (hxy : y ≠ x) : ∀ (m : List (String × Entry)),
    lookupEntry (m.map (fun p => if p.1 == y then (p.1, f p.2) else p)) x =
      lookupEntry m x
  | [] => rfl
  | p :: m => by
    cases hp : (p.1 == y) with
    | true =>
      have hpy : p.1 = y := by simpa using hp
      have hpx : (p.1 == x) = false := by simp [hpy, hxy]
      simp only [List.map_cons, if_pos hp, lookupEntry, List.find?_cons, hpx]
      exact lookupEntry_map_update_other f hxy m
    | false =>
      simp only [List.map_cons, hp, Bool.false_eq_true, if_false, lookupEntry,
        List.find?_cons]
      cases hpx : (p.1 == x) with
      | true => simp [hpx]
      | false =>
        simp only [hpx]
        exact lookupEntry_map_update_other f hxy m

theorem lookupEntry_update_cell_ids (ids : Finset String) (x : String)
    (m : List (String × Entry)) :
    lookupEntry (m.map (fun p => if p.1 == x then
      (p.1, { p.2 with cell_ids := p.2.cell_ids ∪ ids }) else p)) x =
      (lookupEntry m x).map (fun e => { e with cell_ids := e.cell_ids ∪ ids }) :=
  lookupEntry_map_update (fun e => { e with cell_ids := e.cell_ids ∪ ids }) x m

theorem lookupEntry_update_cell_ids_other (ids : Finset String) {x y : String}
    (hxy : y ≠ x) (m : List (String × Entry)) :
    lookupEntry (m.map (fun p => if p.1 == y then
      (p.1, { p.2 with cell_ids := p.2.cell_ids ∪ ids }) else p)) x =
      lookupEntry m x :=
  lookupEntry_map_update_other (fun e => { e with cell_ids := e.cell_ids ∪ ids })
    hxy m

theorem lookupEntry_some_any {m : List (String × Entry)} {x : String}
    {e : Entry} (h : lookupEntry m x = some e) :
    m.any (fun p => p.1 == x) = true := by
  induction m with
  | nil => exact absurd h (by simp [lookupEntry])
  | cons p m ih =>
    cases hp : (p.1 == x) with
    | true => simp [hp]
    | false =>
      simp only [lookupEntry, List.find?_cons, hp] at h
      simp only [List.any_cons, hp, Bool.false_or]
      exact ih h

theorem flatGen_char (acc : List String → String → String) (obs : List Row)
    (x : String) :
    ∀ (os : List (String × Nat × String)) (m m' : List (String × Entry)),
    flatGen acc obs os m = some m' →
    (∀ e, lookupEntry m x = some e →
      lookupEntry m' x =
        some { e with cell_ids := e.cell_ids ∪ unionIds obs x os }) ∧
    (lookupEntry m x = none →
      ((firstOcc x os = none ∧ lookupEntry m' x = none) ∨
       (∃ k₁ r₁ t₁ t₂, firstOcc x os = some (k₁, r₁) ∧
         get_cl_annotations_from_anndata obs k₁ x = some (t₁, t₂) ∧
         lookupEntry m' x = some
           { label := x,
             cell_ids := unionIds obs x os,
             accession := acc (get_cell_ids obs k₁ x) k₁,
             rank := r₁,
             cell_ontology_term_id := some t₁,
             cell_ontology_term := some t₂ })))
  | [], m, m', h => by
    simp only [flatGen] at h
    injection h with h
    subst h
    constructor
    · intro e he
      have hify : ({ e with cell_ids := e.cell_ids ∪ unionIds obs x [] } : Entry)
          = e := by
        show ({ e with cell_ids := e.cell_ids ∪ ∅ } : Entry) = e
        rw [Finset.union_empty]
      rw [hify]
      exact he
    · intro he
      exact Or.inl ⟨rfl, he⟩
  | (k, r, lab) :: os, m, m', h => by
    simp only [flatGen] at h
    cases hg : genStep acc obs k r lab m with
    | none => rw [hg] at h; exact absurd h (by simp)
    | some m₁ =>
      rw [hg] at h
      obtain ⟨IH₁, IH₂⟩ := flatGen_char acc obs x os m₁ m' h
      unfold genStep at hg
      cases hcl : get_cl_annotations_from_anndata obs k lab with
      | none => rw [hcl] at hg; exact absurd hg (by simp)
      | some tt =>
        obtain ⟨t₁, t₂⟩ := tt
        rw [hcl] at hg
        simp only [] at hg
        by_cases hlx : lab = x
        · subst hlx
          constructor
          · -- the label is already present: only cell_ids are updated
            intro e he
            have hmem : m.any (fun p => p.1 == lab) = true :=
              lookupEntry_some_any he
            rw [if_pos hmem] at hg
            injection hg with hg
            have hm₁ : lookupEntry m₁ lab =
                some { e with cell_ids :=
                  e.cell_ids ∪ (get_cell_ids obs k lab).toFinset } := by
              rw [← hg, lookupEntry_update_cell_ids, he]
              rfl
            have hthis := IH₁ _ hm₁
            have hids : unionIds obs lab ((k, r, lab) :: os) =
                (get_cell_ids obs k lab).toFinset ∪ unionIds obs lab os := by
              show (if lab = lab then (get_cell_ids obs k lab).toFinset ∪
                  unionIds obs lab os else unionIds obs lab os) = _
              rw [if_pos rfl]
            have hthis2 : lookupEntry m' lab =
                some { e with cell_ids := e.cell_ids ∪ (get_cell_ids obs k lab).toFinset ∪ unionIds obs lab os } :=
              hthis
            rw [hids, ← Finset.union_assoc]
            exact hthis2
          · -- fresh insertion of the label
            intro he
            have hmem : m.any (fun p => p.1 == lab) = false :=
              lookupEntry_none_any he
            rw [if_neg (by simp [hmem])] at hg
            injection hg with hg
            have hm₁ : lookupEntry m₁ lab = some
                { label := lab,
                  cell_ids := (get_cell_ids obs k lab).toFinset,
                  accession := acc (get_cell_ids obs k lab) k,
                  rank := r,
                  cell_ontology_term_id := some t₁,
                  cell_ontology_term := some t₂ } := by
              rw [← hg, lookupEntry_append_none he, lookupEntry_single_self]
            have hthis := IH₁ _ hm₁
            refine Or.inr ⟨k, r, t₁, t₂, ?_, hcl, ?_⟩
            · show (if lab = lab then some (k, r) else firstOcc lab os) = some (k, r)
              rw [if_pos rfl]
            · have hids : unionIds obs lab ((k, r, lab) :: os) =
                  (get_cell_ids obs k lab).toFinset ∪ unionIds obs lab os := by
                show (if lab = lab then (get_cell_ids obs k lab).toFinset ∪
                    unionIds obs lab os else unionIds obs lab os) = _
                rw [if_pos rfl]
              have hthis2 : lookupEntry m' lab = some
                  { label := lab,
                    cell_ids := (get_cell_ids obs k lab).toFinset ∪
                      unionIds obs lab os,
                    accession := acc (get_cell_ids obs k lab) k,
                    rank := r,
                    cell_ontology_term_id := some t₁,
                    cell_ontology_term := some t₂ } := hthis
              rw [hids]
              exact hthis2
        · -- an occurrence of a different label does not affect x
          have hm₁x : lookupEntry m₁ x = lookupEntry m x := by
            by_cases hmem : m.any (fun p => p.1 == lab) = true
            · rw [if_pos hmem] at hg
              injection hg with hg
              rw [← hg]
              exact lookupEntry_update_cell_ids_other _ hlx m
            · rw [if_neg hmem] at hg
              injection hg with hg
              rw [← hg]
              cases he : lookupEntry m x with
              | some e => exact lookupEntry_append_left he
              | none =>
                rw [lookupEntry_append_none he, lookupEntry_single_other hlx]
          have hfx : firstOcc x ((k, r, lab) :: os) = firstOcc x os := by
            show (if lab = x then some (k, r) else firstOcc x os) = firstOcc x os
            rw [if_neg hlx]
          have hux : unionIds obs x ((k, r, lab) :: os) = unionIds obs x os := by
            show (if lab = x then (get_cell_ids obs k x).toFinset ∪
                unionIds obs x os else unionIds obs x os) = unionIds obs x os
            rw [if_neg hlx]
          constructor
          · intro e he
            rw [hux]
            exact IH₁ e (hm₁x.trans he)
          · intro he
            rw [hfx, hux]
            exact IH₂ (hm₁x.trans he)

/-- The entry stored for a label is fully determined by its first
occurrence, except for the cell-id set, which is the union over all
occurrences. -/
theorem generate_lookup_char (acc : List String → String → String)
    (obs : List Row) (lsd : List (String × LsInfo))
    (m : List (String × Entry)) (x : String) (k₁ : String) (r₁ : Nat)
    (hrun : generate_parent_cell_lookup acc obs lsd [] = some m)
    (hfirst : firstOcc x (occs lsd) = some (k₁, r₁)) :
    ∃ t₁ t₂, get_cl_annotations_from_anndata obs k₁ x = some (t₁, t₂) ∧
      lookupEntry m x = some
        { label := x,
          cell_ids := unionIds obs x (occs lsd),
          accession := acc (get_cell_ids obs k₁ x) k₁,
          rank := r₁,
          cell_ontology_term_id := some t₁,
          cell_ontology_term := some t₂ } := by
  rw [generate_eq_flatGen] at hrun
  obtain ⟨-, h2⟩ := flatGen_char acc obs x (occs lsd) [] m hrun
  rcases h2 rfl with ⟨hnone, -⟩ | ⟨k', r', t₁, t₂, hf, hcl, hl⟩
  · rw [hfirst] at hnone
    exact absurd hnone (by simp)
  · rw [hfirst] at hf
    injection hf with hf
    obtain ⟨hk, hr⟩ := Prod.mk.injEq .. ▸ hf
    cases hf
    exact ⟨t₁, t₂, hcl, hl⟩

/-! ### Characterisation of `calculate_labelset_rank` -/

theorem foldl_dictUpsert_append : ∀ (ps m : List (String × Nat)),
    (∀ p ∈ ps, m.any (fun q => q.1 == p.1) = false) →
    (ps.map Prod.fst).Nodup →
    ps.foldl (fun m' p => dictUpsert m' p.1 p.2) m = m ++ ps
  | [], m, _, _ => by simp
  | p :: ps, m, habs, hnd => by
    have hnd' := List.nodup_cons.mp (by rw [List.map_cons] at hnd; exact hnd)
    simp only [List.foldl_cons]
    have hup : dictUpsert m p.1 p.2 = m ++ [p] := by
      unfold dictUpsert
      rw [if_neg (by simp [habs p (by simp)])]
    rw [hup]
    have habs' : ∀ q ∈ ps, (m ++ [p]).any (fun r => r.1 == q.1) = false := by
      intro q hq
      simp only [List.any_append, Bool.or_eq_false_iff]
      refine ⟨habs q (by simp [hq]), ?_⟩
      simp only [List.any_cons, List.any_nil, Bool.or_false]
      have hne : p.1 ≠ q.1 := by
        intro he
        exact hnd'.1 (he ▸ List.mem_map_of_mem Prod.fst hq)
      exact beq_eq_false_iff_ne.mpr hne
    rw [foldl_dictUpsert_append ps (m ++ [p]) habs' hnd'.2]
    simp

theorem dictGet_of_nodup : ∀ (ps : List (String × Nat)),
    (ps.map Prod.fst).Nodup → ∀ (i : Nat) (hi : i < ps.length),
    dictGet ps ps[i].1 = some ps[i].2
  | [], _, i, hi => by simp at hi
  | p :: ps, hnd, 0, hi => by
    show dictGet (p :: ps) p.1 = some p.2
    unfold dictGet
    rw [List.find?_cons_of_pos _ (by simp)]
    rfl
  | p :: ps, hnd, i + 1, hi => by
    have hi' : i < ps.length := by simpa using hi
    have hnd' := List.nodup_cons.mp (by rw [List.map_cons] at hnd; exact hnd)
    have hmem : ps[i] ∈ ps := List.getElem_mem hi'
    have hne : (p.1 == ps[i].1) = false := by
      refine beq_eq_false_iff_ne.mpr ?_
      intro he
      exact hnd'.1 (he ▸ List.mem_map_of_mem Prod.fst hmem)
    show dictGet (p :: ps) ps[i].1 = some ps[i].2
    unfold dictGet
    rw [List.find?_cons_of_neg _ (by simp [hne])]
    exact dictGet_of_nodup ps hnd'.2 i hi'

theorem calculate_labelset_rank_eq (l : List String) (hnd : l.Nodup) :
    calculate_labelset_rank l =
      l.enum.map (fun p => (p.2, l.length - 1 - p.1)) := by
  unfold calculate_labelset_rank
  have hmap := List.foldl_map (fun p : Nat × String => (p.2, l.length - 1 - p.1))
    (fun m' (p : String × Nat) => dictUpsert m' p.1 p.2) l.enum
    ([] : List (String × Nat))
  rw [← hmap]
  rw [foldl_dictUpsert_append _ [] (by simp) ?keys]
  · simp
  case keys =>
    have : (l.enum.map (fun p : Nat × String => (p.2, l.length - 1 - p.1))).map
        Prod.fst = l := by
      rw [List.map_map]
      have : (Prod.fst ∘ fun p : Nat × String => (p.2, l.length - 1 - p.1)) =
          Prod.snd := rfl
      rw [this, List.enum_map_snd]
    rw [this]
    exact hnd

end CasTools

/-! ## Claims -/

namespace CasTools

/-! ### C1: equal cell-id sets, differing ranks -/

/-- The higher-rank entry of the spec's example: cell ids `{5,6,7}`, rank 3. -/
def c1hi : Entry :=
  { label := "h", cell_ids := {"5", "6", "7"}, accession := "AH", rank := 3 }

/-- The lower-rank entry of the spec's example: cell ids `{5,6,7}`, rank 1. -/
def c1lo : Entry :=
  { label := "l", cell_ids := {"5", "6", "7"}, accession := "AL", rank := 1 }

/-- The final state of the two-entry run: the rank-1 entry points at the
rank-3 entry. -/
def c1final : List Entry := [c1hi, updateParentInfo c1lo "h" c1hi]

/-- C1, counterexample: two entries with identical cell-id sets `{5,6,7}`
at ranks 3 and 1. The claim predicts the rank-1 entry becomes the parent of
the rank-3 entry; in fact the rank-3 entry keeps no parent and the rank-1
entry's parent, p_accession and parent_rank point at the rank-3 entry. -/
theorem C1_counterexample :
    add_parent_cell_hierarchy [c1hi, c1lo] = .ok c1final ∧
    c1hi.cell_ids = c1lo.cell_ids ∧ c1hi.rank = 3 ∧ c1lo.rank = 1 ∧
    (entryAt c1final 0).parent = none ∧
    (entryAt c1final 0).parent ≠ some c1lo.label ∧
    (entryAt c1final 1).parent = some c1hi.label ∧
    (entryAt c1final 1).parent_rank = some 3 := by
  refine ⟨by decide, by decide, rfl, rfl, rfl, by decide, rfl, rfl⟩

/-- C1, amended: for two distinct entries A and B (nonempty distinct
labels, no prior parents) whose cell-id sets are exactly equal and whose
ranks differ, with the lookup consisting of exactly these two entries, the
entry with the strictly HIGHER rank becomes the parent of the entry with
the strictly lower rank: the lower-rank entry's parent, p_accession and
parent_rank end up pointing at the higher-rank entry, in either insertion
order. -/
theorem C1_theorem (A B : Entry) (hL : A.label ≠ B.label)
    (hA : A.parent = none) (hB : B.parent = none) (hBne : B.label ≠ "")
    (hS : A.cell_ids = B.cell_ids) (hr : A.rank < B.rank) :
    add_parent_cell_hierarchy [A, B] = .ok [updateParentInfo A B.label B, B] ∧
    add_parent_cell_hierarchy [B, A] = .ok [B, updateParentInfo A B.label B] :=
  two_entry_equal_sets_aux A B hL hA hB hBne hS hr

/-- C1, witness: the amended theorem applied to the `{5,6,7}` example. -/
theorem C1_witness :
    add_parent_cell_hierarchy [c1lo, c1hi] =
      .ok [updateParentInfo c1lo c1hi.label c1hi, c1hi] ∧
    add_parent_cell_hierarchy [c1hi, c1lo] =
      .ok [c1hi, updateParentInfo c1lo c1hi.label c1hi] :=
  C1_theorem c1lo c1hi (by decide) rfl rfl (by decide) (by decide) (by decide)

/-! ### C2: the parent superset invariant -/

/-- C2, counterexample: in the `{5,6,7}` two-entry run the rank-1 entry
ends with parent = the rank-3 entry, whose cell-id set is identical and
whose rank is strictly GREATER, so the claimed disjunction (strict subset,
or identical sets with parent rank strictly LESS) fails for this edge. -/
theorem C2_counterexample :
    add_parent_cell_hierarchy [c1hi, c1lo] = .ok c1final ∧
    (entryAt c1final 1).parent = some c1hi.label ∧
    ¬((entryAt c1final 1).cell_ids ⊂ c1hi.cell_ids ∨
      ((entryAt c1final 1).cell_ids = c1hi.cell_ids ∧
        c1hi.rank < (entryAt c1final 1).rank)) := by
  refine ⟨by decide, rfl, ?_⟩
  decide

/-- C2, amended: after `add_parent_cell_hierarchy` returns without raising
(started from a lookup with no parents assigned), every entry A with a
recorded parent B satisfies: A's cell-id set is a strict subset of B's, or
the cell-id sets are identical and B's rank is strictly GREATER than A's
rank; B's accession and rank are the recorded p_accession and parent_rank. -/
theorem C2_theorem (s t : List Entry) (h0 : ∀ e ∈ s, e.parent = none)
    (hrun : add_parent_cell_hierarchy s = .ok t) :
    ∀ e ∈ t, ∀ L, e.parent = some L →
      ∃ p ∈ t, p.label = L ∧ e.p_accession = some p.accession ∧
        e.parent_rank = some p.rank ∧
        (e.cell_ids ⊂ p.cell_ids ∨
          (e.cell_ids = p.cell_ids ∧ e.rank < p.rank)) := by
  have hI0 : Inv s := fun i hi => Or.inl (h0 _ (entryAt_mem hi))
  obtain ⟨hIt, himm⟩ := runPairs_inv _ s t
    (fun p hp => allPairs_bounds hp) hrun hI0
  intro e he L hL
  obtain ⟨k, hk, hke⟩ := List.mem_iff_getElem.mp he
  have hkE : entryAt t k = e := by rw [entryAt_eq_getElem hk, hke]
  rcases hIt k hk with hnone | ⟨j, hj, h₁, h₂, h₃, h₄⟩
  · rw [hkE, hL] at hnone
    exact absurd hnone (by simp)
  · refine ⟨entryAt t j, entryAt_mem hj, ?_, ?_, ?_, ?_⟩
    · rw [hkE, hL] at h₁
      exact (Option.some.inj h₁).symm
    · rw [← hkE]; exact h₂
    · rw [← hkE]; exact h₃
    · rw [← hkE]; exact h₄

/-- C2, witness: the amended invariant on the concrete `{5,6,7}` run. -/
theorem C2_witness :
    (∀ e ∈ [c1hi, c1lo], e.parent = none) ∧
    (∀ e ∈ c1final, ∀ L, e.parent = some L →
      ∃ p ∈ c1final, p.label = L ∧ e.p_accession = some p.accession ∧
        e.parent_rank = some p.rank ∧
        (e.cell_ids ⊂ p.cell_ids ∨
          (e.cell_ids = p.cell_ids ∧ e.rank < p.rank))) :=
  ⟨by decide, C2_theorem [c1hi, c1lo] c1final (by decide) (by decide)⟩

end CasTools

namespace CasTools

/-! ### C5: the skip condition compares rank strings, not numbers -/

/-- Entry `{1}` at rank 0; acquires parent `P` first. -/
def c5a : Entry := { label := "A", cell_ids := {"1"}, accession := "aA", rank := 0 }

/-- Entry `{1,2}` at rank 2; the first parent assigned to `A`. -/
def c5p : Entry := { label := "P", cell_ids := {"1", "2"}, accession := "aP", rank := 2 }

/-- Entry `{1,2,3}` at rank 10: numerically 2 <= 10, but as decimal
strings "2" <= "10" is false. -/
def c5b : Entry := { label := "B", cell_ids := {"1", "2", "3"}, accession := "aB", rank := 10 }

/-- C5: `value.get("parent_rank", 0) <= inner_value.get("rank")` compares
the decimal strings produced by `calculate_labelset` lexicographically.
With `A` already parented at recorded rank 2 and candidate `B` at rank 10,
the claim demands the pair (A, B) perform no assignment (2 <= 10); the code
does not skip ("2" <= "10" is false as strings) and reassigns A's parent to
B, both in the single pair step and in the full scan. -/
theorem C5_theorem :
    (updateParentInfo c5a c5p.label c5p).parent_rank = some 2 ∧ c5b.rank = 10 ∧
    (2 : Nat) ≤ 10 ∧
    pySkip (updateParentInfo c5a c5p.label c5p) c5b = false ∧
    pairStep [updateParentInfo c5a c5p.label c5p, c5p, c5b] 0 2 =
      .ok [updateParentInfo c5a c5b.label c5b, c5p, c5b] ∧
    add_parent_cell_hierarchy [c5a, c5p, c5b] =
      .ok [updateParentInfo c5a c5b.label c5b, updateParentInfo c5p c5b.label c5b, c5b] := by
  refine ⟨rfl, rfl, by decide, by decide, by decide, by decide⟩

/-! ### C6: ambiguity detection can be shielded -/

/-- A strict superset `{1,2,3}` at rank 0 that parents both ambiguous
entries before their mutual pair is examined. -/
def c6p : Entry := { label := "P", cell_ids := {"1", "2", "3"}, accession := "cP", rank := 0 }

/-- First of the two ambiguous entries: `{1,2}` at rank 1. -/
def c6a : Entry := { label := "A", cell_ids := {"1", "2"}, accession := "cA", rank := 1 }

/-- Second of the two ambiguous entries: `{1,2}` at rank 1. -/
def c6b : Entry := { label := "B", cell_ids := {"1", "2"}, accession := "cB", rank := 1 }

/-- C6, counterexample: the lookup `[P, A, B]` contains two distinct
entries `A`, `B` with identical cell-id sets and identical rank, yet
`add_parent_cell_hierarchy` returns without raising: both entries acquire
parent `P` first, and the skip guard then hides the ambiguity check. -/
theorem C6_counterexample :
    c6a.label ≠ c6b.label ∧ c6a.cell_ids = c6b.cell_ids ∧ c6a.rank = c6b.rank ∧
    add_parent_cell_hierarchy [c6p, c6a, c6b] =
      .ok [c6p, updateParentInfo c6a c6p.label c6p,
        updateParentInfo c6b c6p.label c6p] := by
  refine ⟨by decide, by decide, rfl, by decide⟩

/-- C6, amended: when the lookup consists of exactly the two entries (with
distinct labels and no prior parents), two identical cell-id sets at equal
rank do raise the `ValueError`, whose payload names both labels, in either
insertion order; no parent is silently picked. In larger lookups the check
can be shielded by an already-assigned parent (see the counterexample). -/
theorem C6_theorem (A B : Entry) (hL : A.label ≠ B.label)
    (hA : A.parent = none) (hB : B.parent = none)
    (hS : A.cell_ids = B.cell_ids) (hr : A.rank = B.rank) :
    add_parent_cell_hierarchy [A, B] = .error (A.label, B.label) ∧
    add_parent_cell_hierarchy [B, A] = .error (B.label, A.label) :=
  ⟨two_entry_equal_rank_aux A B hL hA hS hr,
   two_entry_equal_rank_aux B A (Ne.symm hL) hB hS.symm hr.symm⟩

/-- C6, witness: the two `{1,2}` rank-1 entries alone raise the ambiguity error. -/
theorem C6_witness :
    add_parent_cell_hierarchy [c6a, c6b] = .error ("A", "B") ∧
    add_parent_cell_hierarchy [c6b, c6a] = .error ("B", "A") :=
  C6_theorem c6a c6b (by decide) rfl rfl (by decide) rfl

/-! ### C7: acyclicity of the final parent relation -/

/-- C7: starting from a lookup with no parents assigned and distinct
labels, if the scan returns, no entry is its own parent and following
parent links never returns to the starting entry (the transitive closure
of the parent relation is irreflexive). -/
theorem C7_theorem (s t : List Entry) (h0 : ∀ e ∈ s, e.parent = none)
    (hnd : (s.map (fun e => e.label)).Nodup)
    (hrun : add_parent_cell_hierarchy s = .ok t) :
    (∀ a, ¬parentEdge t a a) ∧
    (∀ a, ¬Relation.TransGen (parentEdge t) a a) := by
  have hI0 : Inv s := fun i hi => Or.inl (h0 _ (entryAt_mem hi))
  obtain ⟨hIt, himm⟩ := runPairs_inv _ s t
    (fun p hp => allPairs_bounds hp) hrun hI0
  have hndt : (t.map (fun e => e.label)).Nodup := by
    rw [labels_map_eq himm]
    exact hnd
  have hcyc : ∀ a, ¬Relation.TransGen (parentEdge t) a a := by
    intro a hTG
    exact entryLt_irrefl a (transGen_entryLt hndt hIt hTG)
  exact ⟨fun a ha => hcyc a (Relation.TransGen.single ha), hcyc⟩

/-- The three-level example: cluster ⊂ subclass ⊂ class. -/
def c7c1 : Entry := { label := "c1", cell_ids := {"1", "2"}, accession := "x1", rank := 0 }

def c7s1 : Entry := { label := "s1", cell_ids := {"1", "2", "3"}, accession := "x2", rank := 1 }

def c7cl1 : Entry := { label := "cl1", cell_ids := {"1", "2", "3", "4"}, accession := "x3", rank := 2 }

/-- The final state of the three-level example. -/
def c7final : List Entry :=
  [updateParentInfo c7c1 "s1" c7s1, updateParentInfo c7s1 "cl1" c7cl1, c7cl1]

/-- C7, witness: the acyclicity theorem applied to the three-level chain. -/
theorem C7_witness :
    add_parent_cell_hierarchy [c7c1, c7s1, c7cl1] = .ok c7final ∧
    (∀ a, ¬parentEdge c7final a a) ∧
    (∀ a, ¬Relation.TransGen (parentEdge c7final) a a) :=
  ⟨by decide,
   (C7_theorem [c7c1, c7s1, c7cl1] c7final (by decide) (by decide) (by decide)).1,
   (C7_theorem [c7c1, c7s1, c7cl1] c7final (by decide) (by decide) (by decide)).2⟩

end CasTools

namespace CasTools

/-! ### C4: dependence on iteration order -/

/-- `{1}` at rank 0: subset of both competitors. -/
def c4a : Entry := { label := "A", cell_ids := {"1"}, accession := "bA", rank := 0 }

/-- `{1,2}` at rank 1. -/
def c4b : Entry := { label := "B", cell_ids := {"1", "2"}, accession := "bB", rank := 1 }

/-- `{1,3}` at rank 1: same rank as `B`, also a strict superset of `A`. -/
def c4c : Entry := { label := "C", cell_ids := {"1", "3"}, accession := "bC", rank := 1 }

/-- C4, counterexample: the same entry collection in two insertion orders
(a permutation) produces different parent assignments: entry `A` ends with
parent `B` in one order and parent `C` in the other, because two strict
supersets share the same rank and the first one examined wins. -/
theorem C4_counterexample :
    List.Perm [c4a, c4b, c4c] [c4a, c4c, c4b] ∧
    (add_parent_cell_hierarchy [c4a, c4b, c4c]).toOption.map
      (fun t => (entryAt t 0).parent) = some (some "B") ∧
    (add_parent_cell_hierarchy [c4a, c4c, c4b]).toOption.map
      (fun t => (entryAt t 0).parent) = some (some "C") ∧
    (entryAt [c4a, c4b, c4c] 0).label = (entryAt [c4a, c4c, c4b] 0).label := by
  refine ⟨by decide, by decide, by decide, rfl⟩

/-- C4, amended: the parent assignments are independent of the iteration
order provided no two distinct entries have equal cell-id sets and no two
entries share a rank (distinct decimal representations, hence distinct
ranks), labels are distinct keys in use (nonempty) and no parent is
pre-assigned: any two insertion orders of the same entry collection succeed
and produce the same final entries (equal as multisets, so every label's
parent, p_accession and parent_rank fields agree). -/
theorem C4_theorem (s s' : List Entry) (hperm : s.Perm s')
    (h0 : ∀ e ∈ s, e.parent = none)
    (hne : ∀ e ∈ s, e.label ≠ "")
    (hcid : s.Pairwise (fun a b => a.cell_ids ≠ b.cell_ids))
    (hrk : s.Pairwise (fun a b => Nat.repr a.rank ≠ Nat.repr b.rank)) :
    ∃ t t', add_parent_cell_hierarchy s = .ok t ∧
      add_parent_cell_hierarchy s' = .ok t' ∧ t.Perm t' ∧
      ∀ e, e ∈ t ↔ e ∈ t' := by
  obtain ⟨h₁, h₂, h₃⟩ := C4_canonical_perm s s' hperm h0 hne hcid hrk
  exact ⟨_, _, h₁, h₂, h₃, fun e => ⟨fun he => h₃.subset he,
    fun he => h₃.symm.subset he⟩⟩

/-- Distinct-rank variant of the `B`/`C` competitors for the witness. -/
def c4b2 : Entry := { label := "B", cell_ids := {"1", "2"}, accession := "bB", rank := 1 }

def c4c2 : Entry := { label := "C", cell_ids := {"1", "2", "3"}, accession := "bC", rank := 2 }

/-- C4, witness: with distinct cell-id sets and distinct ranks, both
insertion orders give permutation-equal final states. -/
theorem C4_witness :
    ∃ t t', add_parent_cell_hierarchy [c4a, c4b2, c4c2] = .ok t ∧
      add_parent_cell_hierarchy [c4c2, c4a, c4b2] = .ok t' ∧ t.Perm t' ∧
      ∀ e, e ∈ t ↔ e ∈ t' :=
  C4_theorem [c4a, c4b2, c4c2] [c4c2, c4a, c4b2] (by decide) (by decide)
    (by decide) (by decide) (by decide)

end CasTools

namespace CasTools

/-! ### C3 and C10: merging behaviour of `generate_parent_cell_lookup` -/

/-- Two cells; `L1` maps both to label "x"; `L2` maps cell 1 to "x" and
cell 2 to "y". -/
def c3Obs : List Row :=
  [ { cellId := "1", cols := [("L1", "x"), ("L2", "x")],
      cell_type_ontology_term_id := "CL:1", cell_type := "tx" },
    { cellId := "2", cols := [("L1", "x"), ("L2", "y")],
      cell_type_ontology_term_id := "CL:2", cell_type := "ty" } ]

/-- A concrete deterministic accession service. -/
def c3Acc : List String → String → String :=
  fun ids k => k ++ ":" ++ String.intercalate "," ids

/-- Labelset `L1` (rank 1) is processed before `L2` (rank 0); label "x"
occurs in both. -/
def c3Lsd : List (String × LsInfo) :=
  [("L1", ⟨["x"], 1⟩), ("L2", ⟨["x", "y"], 0⟩)]

/-- The computed lookup for the two-labelset example. -/
def c3m : List (String × Entry) :=
  (generate_parent_cell_lookup c3Acc c3Obs c3Lsd []).getD []

/-- The merged entry stored under label "x". -/
def c3x : Entry := (lookupEntry c3m "x").getD defaultEntry

/-- C3, counterexample: label "x" occurs under labelset `L1` (rank 1,
processed first) and labelset `L2` (rank 0, processed most recently). The
claim predicts the merged entry's rank is 0; the code keeps the first
labelset's rank 1. The cell-id set is correctly the union. -/
theorem C3_counterexample :
    occs c3Lsd = [("L1", 1, "x"), ("L2", 0, "x"), ("L2", 0, "y")] ∧
    (lookupEntry c3m "x").isSome = true ∧
    c3x.rank = 1 ∧ c3x.rank ≠ 0 ∧ c3x.cell_ids = {"1", "2"} := by
  refine ⟨by decide, by decide, by decide, by decide, by decide⟩

/-- C3, amended: when the same label text occurs under more than one
labelset, all occurrences are merged into the single entry stored under
that label text, whose cell-id set is the union of the occurrences'
cell-id sets; the merged entry's rank is the rank of the FIRST processed
occurrence's labelset (not the most recent). -/
theorem C3_theorem (acc : List String → String → String) (obs : List Row)
    (lsd : List (String × LsInfo)) (m : List (String × Entry))
    (x k₁ : String) (r₁ : Nat)
    (hrun : generate_parent_cell_lookup acc obs lsd [] = some m)
    (hfirst : firstOcc x (occs lsd) = some (k₁, r₁)) :
    ∃ e, lookupEntry m x = some e ∧
      e.cell_ids = unionIds obs x (occs lsd) ∧ e.rank = r₁ := by
  obtain ⟨t₁, t₂, hcl, hl⟩ := generate_lookup_char acc obs lsd m x k₁ r₁
    hrun hfirst
  exact ⟨_, hl, rfl, rfl⟩

/-- C3, witness: the amended statement on the two-labelset example. -/
theorem C3_witness :
    ∃ e, lookupEntry c3m "x" = some e ∧
      e.cell_ids = unionIds c3Obs "x" (occs c3Lsd) ∧ e.rank = 1 :=
  C3_theorem c3Acc c3Obs c3Lsd c3m "x" "L1" 1 (by rfl) (by decide)

/-- C10: on a merge, only `cell_ids` is updated: the stored accession,
rank and ontology fields keep the values computed at the FIRST occurrence,
and the accession is the one derived from the first occurrence's pre-union
cell-id list. -/
theorem C10_theorem (acc : List String → String → String) (obs : List Row)
    (lsd : List (String × LsInfo)) (m : List (String × Entry))
    (x k₁ : String) (r₁ : Nat)
    (hrun : generate_parent_cell_lookup acc obs lsd [] = some m)
    (hfirst : firstOcc x (occs lsd) = some (k₁, r₁)) :
    ∃ e t₁ t₂, lookupEntry m x = some e ∧
      get_cl_annotations_from_anndata obs k₁ x = some (t₁, t₂) ∧
      e.accession = acc (get_cell_ids obs k₁ x) k₁ ∧
      e.rank = r₁ ∧
      e.cell_ontology_term_id = some t₁ ∧
      e.cell_ontology_term = some t₂ ∧
      e.cell_ids = unionIds obs x (occs lsd) := by
  obtain ⟨t₁, t₂, hcl, hl⟩ := generate_lookup_char acc obs lsd m x k₁ r₁
    hrun hfirst
  exact ⟨_, t₁, t₂, hl, hcl, rfl, rfl, rfl, rfl, rfl⟩

/-- C10, witness: on the two-labelset example, the merged entry keeps the
first occurrence's accession (computed from `L1`'s pre-union cell ids),
rank and ontology fields. -/
theorem C10_witness :
    ∃ e t₁ t₂, lookupEntry c3m "x" = some e ∧
      get_cl_annotations_from_anndata c3Obs "L1" "x" = some (t₁, t₂) ∧
      e.accession = c3Acc (get_cell_ids c3Obs "L1" "x") "L1" ∧
      e.rank = 1 ∧
      e.cell_ontology_term_id = some t₁ ∧
      e.cell_ontology_term = some t₂ ∧
      e.cell_ids = unionIds c3Obs "x" (occs c3Lsd) :=
  C10_theorem c3Acc c3Obs c3Lsd c3m "x" "L1" 1 (by rfl) (by decide)

end CasTools

namespace CasTools

/-! ### C9: the rank formula -/

/-- C9: for a duplicate-free ordered list of n labelset names,
`calculate_labelset_rank` maps the name at 0-based position i to rank
n − 1 − i (so the first name receives n−1 and the last receives 0), and
the ranks are strictly decreasing along the list. -/
theorem C9_theorem (l : List String) (hnd : l.Nodup) :
    (∀ (i : Nat) (hi : i < l.length),
      dictGet (calculate_labelset_rank l) l[i] = some (l.length - 1 - i)) ∧
    (∀ i j : Nat, i < l.length → j < l.length → i < j →
      l.length - 1 - j < l.length - 1 - i) := by
  constructor
  · intro i hi
    rw [calculate_labelset_rank_eq l hnd]
    have hkeys : ((l.enum.map (fun p => (p.2, l.length - 1 - p.1))).map
        Prod.fst).Nodup := by
      rw [List.map_map]
      have heq : (Prod.fst ∘ fun p : Nat × String => (p.2, l.length - 1 - p.1)) =
          Prod.snd := rfl
      rw [heq, List.enum_map_snd]
      exact hnd
    have hlen : i < (l.enum.map (fun p => (p.2, l.length - 1 - p.1))).length := by
      simpa using hi
    have hget := dictGet_of_nodup _ hkeys i hlen
    have hval : (l.enum.map (fun p => (p.2, l.length - 1 - p.1)))[i] =
        (l[i], l.length - 1 - i) := by
      rw [List.getElem_map, List.getElem_enum]
    rw [hval] at hget
    exact hget
  · intro i j hi hj hij
    omega

/-- C9, witness: the rank formula on `["Class", "Subclass", "Cluster"]`. -/
theorem C9_witness :
    (∀ (i : Nat) (hi : i < (["Class", "Subclass", "Cluster"] : List String).length),
      dictGet (calculate_labelset_rank ["Class", "Subclass", "Cluster"])
        (["Class", "Subclass", "Cluster"] : List String)[i] =
        some ((["Class", "Subclass", "Cluster"] : List String).length - 1 - i)) ∧
    (∀ i j : Nat, i < (["Class", "Subclass", "Cluster"] : List String).length →
      j < (["Class", "Subclass", "Cluster"] : List String).length → i < j →
      (["Class", "Subclass", "Cluster"] : List String).length - 1 - j <
        (["Class", "Subclass", "Cluster"] : List String).length - 1 - i) :=
  C9_theorem ["Class", "Subclass", "Cluster"] (by decide)

/-! ### C8: one-directional redundancy pruning -/

/-- C8: `add_parent_hierarchy_to_annotations` maps each record through its
own enrichment step (so one record's step never alters another record, in
particular never the parent's own record, and the lookup is read-only),
and for every record the ontology fields are either left exactly as they
were, or both removed, the latter only when the record's looked-up entry
has a truthy parent and p_accession and both fields exactly equal the
parent entry's ontology fields; fields that are already absent are never
reinstated. -/
theorem C8_theorem (lookup : List (String × Entry)) (annos : List AnnotationRecord) :
    add_parent_hierarchy_to_annotations lookup annos =
      annos.map (enrichAnnotationRecord lookup) ∧
    ∀ a : AnnotationRecord,
      (((enrichAnnotationRecord lookup a).cell_ontology_term_id =
          a.cell_ontology_term_id ∧
        (enrichAnnotationRecord lookup a).cell_ontology_term =
          a.cell_ontology_term) ∨
       (((enrichAnnotationRecord lookup a).cell_ontology_term_id = none ∧
         (enrichAnnotationRecord lookup a).cell_ontology_term = none) ∧
        ∃ e, lookupEntry lookup a.cell_label = some e ∧
          pyTruthy e.parent = true ∧ pyTruthy e.p_accession = true ∧
          (e.parent.bind (fun q => lookupEntry lookup q)).bind
            (fun d => d.cell_ontology_term_id) = a.cell_ontology_term_id ∧
          (e.parent.bind (fun q => lookupEntry lookup q)).bind
            (fun d => d.cell_ontology_term) = a.cell_ontology_term)) ∧
      (a.cell_ontology_term_id = none →
        (enrichAnnotationRecord lookup a).cell_ontology_term_id = none) ∧
      (a.cell_ontology_term = none →
        (enrichAnnotationRecord lookup a).cell_ontology_term = none) := by
  refine ⟨rfl, ?_⟩
  intro a
  cases hpi : lookupEntry lookup a.cell_label with
  | none =>
    unfold enrichAnnotationRecord
    rw [hpi]
    rw [if_neg (by simp [pyTruthy])]
    exact ⟨Or.inl ⟨rfl, rfl⟩, fun h => h, fun h => h⟩
  | some e =>
    unfold enrichAnnotationRecord
    rw [hpi]
    cases h1 : (pyTruthy e.parent && pyTruthy e.p_accession) with
    | false =>
      simp only [Option.some_bind, h1, Bool.false_eq_true, if_false]
      simp
    | true =>
      obtain ⟨hpar, hpacc⟩ := Bool.and_eq_true_iff.mp h1
      cases h2 : (((e.parent.bind fun x => lookupEntry lookup x).bind
            fun x => x.cell_ontology_term_id) == a.cell_ontology_term_id &&
          ((e.parent.bind fun x => lookupEntry lookup x).bind
            fun x => x.cell_ontology_term) == a.cell_ontology_term) with
      | false =>
        simp only [Option.some_bind, h1, if_true, h2, Bool.false_eq_true,
          if_false]
        simp
      | true =>
        obtain ⟨heq₁, heq₂⟩ := Bool.and_eq_true_iff.mp h2
        simp only [Option.some_bind, h1, if_true, h2]
        refine ⟨Or.inr ⟨?_, e, ?_, hpar, hpacc, ?_, ?_⟩, ?_, ?_⟩ <;>
          first
          | trivial
          | exact fun _ => trivial
          | exact eq_of_beq heq₁
          | exact eq_of_beq heq₂

/-- Concrete parent entry of the pruning example. -/
def c8Parent : Entry :=
  { label := "p", cell_ids := {"1", "2"}, accession := "AP", rank := 0,
    cell_ontology_term_id := some "CL:9", cell_ontology_term := some "T" }

/-- Concrete child entry: resolved parent "p", same ontology terms. -/
def c8Child : Entry :=
  { label := "c", cell_ids := {"1"}, accession := "AC", rank := 1,
    cell_ontology_term_id := some "CL:9", cell_ontology_term := some "T",
    parent := some "p", p_accession := some "AP", parent_rank := some 0 }

def c8Lookup : List (String × Entry) := [("p", c8Parent), ("c", c8Child)]

/-- Child annotation whose ontology fields match its parent's. -/
def c8Ann : AnnotationRecord :=
  { labelset := "Cluster", cell_label := "c", cell_set_accession := "AC",
    cell_ontology_term_id := some "CL:9", cell_ontology_term := some "T" }

/-- C8, witness: the theorem applied to a concrete lookup and annotation. -/
theorem C8_witness :
    add_parent_hierarchy_to_annotations c8Lookup [c8Ann] =
      [c8Ann].map (enrichAnnotationRecord c8Lookup) ∧
    ((((enrichAnnotationRecord c8Lookup c8Ann).cell_ontology_term_id =
        c8Ann.cell_ontology_term_id ∧
      (enrichAnnotationRecord c8Lookup c8Ann).cell_ontology_term =
        c8Ann.cell_ontology_term) ∨
     (((enrichAnnotationRecord c8Lookup c8Ann).cell_ontology_term_id = none ∧
       (enrichAnnotationRecord c8Lookup c8Ann).cell_ontology_term = none) ∧
      ∃ e, lookupEntry c8Lookup c8Ann.cell_label = some e ∧
        pyTruthy e.parent = true ∧ pyTruthy e.p_accession = true ∧
        (e.parent.bind (fun q => lookupEntry c8Lookup q)).bind
          (fun d => d.cell_ontology_term_id) = c8Ann.cell_ontology_term_id ∧
        (e.parent.bind (fun q => lookupEntry c8Lookup q)).bind
          (fun d => d.cell_ontology_term) = c8Ann.cell_ontology_term)) ∧
     (c8Ann.cell_ontology_term_id = none →
       (enrichAnnotationRecord c8Lookup c8Ann).cell_ontology_term_id = none) ∧
     (c8Ann.cell_ontology_term = none →
       (enrichAnnotationRecord c8Lookup c8Ann).cell_ontology_term = none)) :=
  ⟨(C8_theorem c8Lookup [c8Ann]).1, (C8_theorem c8Lookup [c8Ann]).2 c8Ann⟩

end CasTools
